import Mathlib

/-!
Verification of the frmatcher FASTQ filename categorizer
(`src/frmatcher/fastq_file_name_checker.py`).

The development shallowly embeds the Python module:

* a model of the subset of Python `re` syntax and `re.Pattern.search`
  semantics that the module's templates `.*(frag)([._-]).*` and
  `.*(frag).*` rely on (character classes, escapes, groups, alternation,
  quantifiers, anchors, fuel-based recursive-descent parsing mirroring
  `re.compile` syntax checking);
* the checker itself: `compile_patterns`, `_check_filename_lengths`,
  `categorize_fastq_files`, and the `__init__` sequencing, with Python
  exceptions modelled as an error sum type and `raise` as `Except.error`.

Machine integers play no role (the code manipulates lists and strings);
fallible code returns `Except` / `Option`.
-/

namespace Frmatcher

/-! ### Character classes of the regex model

A `CItem` is one item of a bracket class `[...]`; a `CC` is a
single-character matcher: `.`, a literal, or a (possibly negated) class.
Perl classes `\d \D \w \W \s \S` are represented as items so that they can
occur both inside classes and standalone.
-/

inductive CItem where
  | single (c : Char)
  | range (lo hi : Char)
  | dcls
  | wcls
  | scls
  | ndcls
  | nwcls
  | nscls
deriving DecidableEq, Repr

inductive CC where
  | dot
  | lit (c : Char)
  | set (neg : Bool) (items : List CItem)
deriving DecidableEq, Repr

/-- Python `\s` (ASCII): space, tab, newline, carriage return, form feed,
vertical tab. -/
def isPySpace (x : Char) : Bool :=
  x == ' ' || x == '\t' || x == '\n' || x == '\r' ||
    x == Char.ofNat 11 || x == Char.ofNat 12

/-- Python `\w` (ASCII): letters, digits, underscore. -/
def isPyWord (x : Char) : Bool :=
  x.isAlphanum || x == '_'

def itemSat : CItem → Char → Bool
  | .single c, x => x == c
  | .range lo hi, x => decide (lo ≤ x) && decide (x ≤ hi)
  | .dcls, x => x.isDigit
  | .wcls, x => isPyWord x
  | .scls, x => isPySpace x
  | .ndcls, x => !x.isDigit
  | .nwcls, x => !isPyWord x
  | .nscls, x => !isPySpace x

/-- One-character matching. `.` matches anything except newline (no
`DOTALL`); a negated class matches when no item does. -/
def ccSat : CC → Char → Bool
  | .dot, x => !(x == '\n')
  | .lit c, x => x == c
  | .set neg items, x =>
      if neg then !(items.any (fun it => itemSat it x))
      else items.any (fun it => itemSat it x)

/-! ### Regexes and positional matching semantics

Matching is relative to the whole subject string (anchors are absolute
positions), so the semantics is a relation on span endpoints `i ≤ j`.
`+`, `?` and non-capturing behaviour of groups are desugared by the
parser; the AST only needs the constructors below.
-/

inductive Regex where
  | eps
  | cls (c : CC)
  | startAnchor
  | endAnchor
  | cat (r1 r2 : Regex)
  | alt (r1 r2 : Regex)
  | star (r : Regex)
deriving DecidableEq, Repr

/-- Python `$` (no `MULTILINE`): matches at the very end, or just before a
trailing newline. -/
def atEnd (s : List Char) (i : Nat) : Bool :=
  i == s.length || (i + 1 == s.length && s.getD i ' ' == '\n')

/-- `RMatch s r i j`: regex `r` matches exactly the span `[i, j)` of
subject `s`, with anchors interpreted against the whole of `s`. -/
inductive RMatch (s : List Char) : Regex → Nat → Nat → Prop where
  | eps (i : Nat) : RMatch s .eps i i
  | cls (c : CC) (i : Nat) (h : i < s.length) (hs : ccSat c (s.getD i ' ') = true) :
      RMatch s (.cls c) i (i + 1)
  | startAnchor : RMatch s .startAnchor 0 0
  | endAnchor (i : Nat) (h : atEnd s i = true) : RMatch s .endAnchor i i
  | cat (r1 r2 : Regex) (i k j : Nat) (h1 : RMatch s r1 i k) (h2 : RMatch s r2 k j) :
      RMatch s (.cat r1 r2) i j
  | altL (r1 r2 : Regex) (i j : Nat) (h : RMatch s r1 i j) : RMatch s (.alt r1 r2) i j
  | altR (r1 r2 : Regex) (i j : Nat) (h : RMatch s r2 i j) : RMatch s (.alt r1 r2) i j
  | starNil (r : Regex) (i : Nat) : RMatch s (.star r) i i
  | starCons (r : Regex) (i k j : Nat) (h1 : RMatch s r i k) (h2 : RMatch s (.star r) k j) :
      RMatch s (.star r) i j

/-! ### Executable matcher

`mEnds r s i` computes every `j` with `RMatch s r i j` (for `i ≤ s.length`).
The star case is a bounded reachability closure: positions live in
`[0, s.length]`, so `s.length + 1` rounds reach the fixed point.
-/

def closeStep (step : Nat → List Nat) (acc : List Nat) : List Nat :=
  ((acc.flatMap step).filter (fun j => decide (¬ j ∈ acc))).dedup

def starIter (step : Nat → List Nat) : Nat → List Nat → List Nat
  | 0, acc => acc
  | fuel + 1, acc =>
      let nxt := closeStep step acc
      if nxt = [] then acc else starIter step fuel (acc ++ nxt)

def mEnds (r : Regex) (s : List Char) (i : Nat) : List Nat :=
  match r with
  | .eps => [i]
  | .cls c => if i < s.length ∧ ccSat c (s.getD i ' ') = true then [i + 1] else []
  | .startAnchor => if i = 0 then [i] else []
  | .endAnchor => if atEnd s i = true then [i] else []
  | .cat r1 r2 => (mEnds r1 s i).flatMap (fun k => mEnds r2 s k)
  | .alt r1 r2 => (mEnds r1 s i ++ mEnds r2 s i).dedup
  | .star r => starIter (fun k => mEnds r s k) (s.length + 1) [i]

/-- Model of `re.Pattern.search` returning whether any match exists:
the pattern may match starting at any position `0 .. s.length`. -/
def reSearch (r : Regex) (s : List Char) : Bool :=
  (List.range (s.length + 1)).any (fun i => !(mEnds r s i).isEmpty)

/-! ### Correctness of the matcher -/

/-- Reachability along a step function; used to characterise the star
closure computed by `starIter`. -/
inductive Reach (step : Nat → List Nat) : Nat → Nat → Prop where
  | refl (i : Nat) : Reach step i i
  | head (i k j : Nat) (h1 : k ∈ step i) (h2 : Reach step k j) : Reach step i j

theorem Reach.snoc {step : Nat → List Nat} {i a b : Nat}
    (h : Reach step i a) (hb : b ∈ step a) : Reach step i b := by
  induction h with
  | refl i => exact Reach.head i b b hb (Reach.refl b)
  | head i k j h1 _ ih => exact Reach.head i k b h1 (ih hb)

theorem starIter_subset (step : Nat → List Nat) :
    ∀ fuel acc, ∀ a ∈ acc, a ∈ starIter step fuel acc := by
  intro fuel
  induction fuel with
  | zero => intro acc a ha; simpa [starIter] using ha
  | succ n ih =>
    intro acc a ha
    simp only [starIter]
    split
    · exact ha
    · exact ih (acc ++ closeStep step acc) a (List.mem_append_left _ ha)

theorem mem_closeStep {step : Nat → List Nat} {acc : List Nat} {b : Nat} :
    b ∈ closeStep step acc ↔ (∃ a ∈ acc, b ∈ step a) ∧ b ∉ acc := by
  simp [closeStep, List.mem_dedup, List.mem_filter, List.mem_flatMap]

theorem starIter_bound {step : Nat → List Nat} {N : Nat}
    (hstep : ∀ a, a ≤ N → ∀ b ∈ step a, b ≤ N) :
    ∀ fuel acc, (∀ a ∈ acc, a ≤ N) → ∀ j ∈ starIter step fuel acc, j ≤ N := by
  intro fuel
  induction fuel with
  | zero => intro acc hacc j hj; exact hacc j (by simpa [starIter] using hj)
  | succ n ih =>
    intro acc hacc j hj
    simp only [starIter] at hj
    split at hj
    · exact hacc j hj
    · refine ih (acc ++ closeStep step acc) ?_ j hj
      intro a ha
      rcases List.mem_append.1 ha with h | h
      · exact hacc a h
      · rcases (mem_closeStep.1 h).1 with ⟨x, hx, hax⟩
        exact hstep x (hacc x hx) a hax

theorem starIter_reach {step : Nat → List Nat} {i : Nat} :
    ∀ fuel acc, (∀ a ∈ acc, Reach step i a) → ∀ j ∈ starIter step fuel acc, Reach step i j := by
  intro fuel
  induction fuel with
  | zero => intro acc hacc j hj; exact hacc j (by simpa [starIter] using hj)
  | succ n ih =>
    intro acc hacc j hj
    simp only [starIter] at hj
    split at hj
    · exact hacc j hj
    · refine ih (acc ++ closeStep step acc) ?_ j hj
      intro a ha
      rcases List.mem_append.1 ha with h | h
      · exact hacc a h
      · rcases (mem_closeStep.1 h).1 with ⟨x, hx, hax⟩
        exact (hacc x hx).snoc hax

/-- A nodup list of naturals all `≤ N` with length `N + 1` contains every
natural `≤ N`. -/
theorem mem_of_nodup_bounded_full {acc : List Nat} {N b : Nat}
    (hnd : acc.Nodup) (hb : ∀ a ∈ acc, a ≤ N) (hlen : N + 1 ≤ acc.length)
    (hbN : b ≤ N) : b ∈ acc := by
  have hsub : acc.toFinset ⊆ Finset.range (N + 1) := by
    intro x hx
    simpa [Finset.mem_range, Nat.lt_succ_iff] using hb x (List.mem_toFinset.1 hx)
  have hcard : (Finset.range (N + 1)).card ≤ acc.toFinset.card := by
    rw [Finset.card_range, List.toFinset_card_of_nodup hnd]
    exact hlen
  have := Finset.eq_of_subset_of_card_le hsub hcard
  have hbmem : b ∈ Finset.range (N + 1) := by
    simpa [Finset.mem_range, Nat.lt_succ_iff] using hbN
  rw [← this] at hbmem
  exact List.mem_toFinset.1 hbmem

theorem starIter_closed {step : Nat → List Nat} {N : Nat}
    (hstep : ∀ a, a ≤ N → ∀ b ∈ step a, b ≤ N) :
    ∀ fuel acc, acc.Nodup → (∀ a ∈ acc, a ≤ N) → N + 1 ≤ fuel + acc.length →
      ∀ a ∈ starIter step fuel acc, ∀ b ∈ step a, b ∈ starIter step fuel acc := by
  intro fuel
  induction fuel with
  | zero =>
    intro acc hnd hb hlen a ha b hab
    simp only [starIter] at ha ⊢
    exact mem_of_nodup_bounded_full hnd hb (by omega)
      (hstep a (hb a ha) b hab)
  | succ n ih =>
    intro acc hnd hb hlen a ha b hab
    simp only [starIter] at ha ⊢
    split at ha
    · next hempty =>
      rw [if_pos hempty]
      by_cases hbacc : b ∈ acc
      · exact hbacc
      · exfalso
        have : b ∈ closeStep step acc := mem_closeStep.2 ⟨⟨a, ha, hab⟩, hbacc⟩
        rw [hempty] at this
        exact List.not_mem_nil b this
    · next hne =>
      rw [if_neg hne]
      have hnd' : (acc ++ closeStep step acc).Nodup := by
        refine List.Nodup.append hnd (List.nodup_dedup _) ?_
        intro x hx hx'
        exact (mem_closeStep.1 hx').2 hx
      have hb' : ∀ x ∈ acc ++ closeStep step acc, x ≤ N := by
        intro x hx
        rcases List.mem_append.1 hx with h | h
        · exact hb x h
        · rcases (mem_closeStep.1 h).1 with ⟨y, hy, hxy⟩
          exact hstep y (hb y hy) x hxy
      have hlen' : N + 1 ≤ n + (acc ++ closeStep step acc).length := by
        have : 1 ≤ (closeStep step acc).length := by
          rcases List.exists_mem_of_ne_nil _ hne with ⟨x, hx⟩
          exact List.length_pos.2 (fun h => by simp [h] at hx)
        simp only [List.length_append]
        omega
      exact ih (acc ++ closeStep step acc) hnd' hb' hlen' a ha b hab

theorem mem_of_reach_closed {step : Nat → List Nat} {X : List Nat}
    (hX : ∀ a ∈ X, ∀ b ∈ step a, b ∈ X) :
    ∀ i j, Reach step i j → i ∈ X → j ∈ X := by
  intro i j h hi
  induction h with
  | refl i => exact hi
  | head i k j h1 _ ih => exact ih (hX i hi k h1)

theorem reach_mem_starIter {step : Nat → List Nat} {N i j : Nat}
    (hstep : ∀ a, a ≤ N → ∀ b ∈ step a, b ≤ N) (hi : i ≤ N)
    (h : Reach step i j) : j ∈ starIter step (N + 1) [i] := by
  refine mem_of_reach_closed ?_ i j h (starIter_subset step (N + 1) [i] i (by simp))
  refine starIter_closed hstep (N + 1) [i] (by simp) ?_ (by simp)
  intro a ha
  simp only [List.mem_singleton] at ha
  omega

/-- A match spans a nondecreasing range of positions. -/
theorem RMatch.le {s : List Char} {r : Regex} {i j : Nat}
    (h : RMatch s r i j) : i ≤ j := by
  induction h with
  | eps i => exact Nat.le_refl i
  | cls c i h hs => omega
  | startAnchor => exact Nat.le_refl 0
  | endAnchor i h => exact Nat.le_refl i
  | cat r1 r2 i k j h1 h2 ih1 ih2 => omega
  | altL r1 r2 i j h ih => exact ih
  | altR r1 r2 i j h ih => exact ih
  | starNil r i => exact Nat.le_refl i
  | starCons r i k j h1 h2 ih1 ih2 => omega

theorem mEnds_le {s : List Char} :
    ∀ (r : Regex) (i : Nat), i ≤ s.length → ∀ j ∈ mEnds r s i, j ≤ s.length := by
  intro r
  induction r with
  | eps => intro i hi j hj; simp only [mEnds, List.mem_singleton] at hj; omega
  | cls c =>
    intro i hi j hj
    simp only [mEnds] at hj
    split at hj
    · next h => simp only [List.mem_singleton] at hj; omega
    · exact absurd hj (List.not_mem_nil j)
  | startAnchor =>
    intro i hi j hj
    simp only [mEnds] at hj
    split at hj
    · simp only [List.mem_singleton] at hj; omega
    · exact absurd hj (List.not_mem_nil j)
  | endAnchor =>
    intro i hi j hj
    simp only [mEnds] at hj
    split at hj
    · simp only [List.mem_singleton] at hj; omega
    · exact absurd hj (List.not_mem_nil j)
  | cat r1 r2 ih1 ih2 =>
    intro i hi j hj
    simp only [mEnds, List.mem_flatMap] at hj
    rcases hj with ⟨k, hk, hj⟩
    exact ih2 k (ih1 i hi k hk) j hj
  | alt r1 r2 ih1 ih2 =>
    intro i hi j hj
    simp only [mEnds, List.mem_dedup, List.mem_append] at hj
    rcases hj with h | h
    · exact ih1 i hi j h
    · exact ih2 i hi j h
  | star r ih =>
    intro i hi j hj
    exact starIter_bound (fun a ha b hb => ih a ha b hb) (s.length + 1) [i]
      (by intro a ha; simp only [List.mem_singleton] at ha; omega) j hj

theorem star_of_reach {s : List Char} {r : Regex}
    (hr : ∀ a b, a ≤ s.length → b ∈ mEnds r s a → RMatch s r a b) :
    ∀ i j, Reach (fun k => mEnds r s k) i j → i ≤ s.length → RMatch s (.star r) i j := by
  intro i j h
  induction h with
  | refl i => intro _; exact RMatch.starNil r i
  | head i k j h1 _ ih =>
    intro hi
    exact RMatch.starCons r i k j (hr i k hi h1) (ih (mEnds_le r i hi k h1))

theorem reach_of_star {s : List Char} {q : Regex} {i j : Nat}
    (h : RMatch s q i j) :
    ∀ r : Regex, q = .star r →
      (∀ a b, a ≤ s.length → RMatch s r a b → b ∈ mEnds r s a) →
      i ≤ s.length → Reach (fun k => mEnds r s k) i j := by
  induction h with
  | eps i => intro r hq; exact absurd hq (by intro h; cases h)
  | cls c i h hs => intro r hq; exact absurd hq (by intro h; cases h)
  | startAnchor => intro r hq; exact absurd hq (by intro h; cases h)
  | endAnchor i h => intro r hq; exact absurd hq (by intro h; cases h)
  | cat r1 r2 i k j h1 h2 ih1 ih2 => intro r hq; exact absurd hq (by intro h; cases h)
  | altL r1 r2 i j h ih => intro r hq; exact absurd hq (by intro h; cases h)
  | altR r1 r2 i j h ih => intro r hq; exact absurd hq (by intro h; cases h)
  | starNil r' i => intro r hq _ _; exact Reach.refl i
  | starCons r' i k j h1 h2 ih1 ih2 =>
    intro r hq hr hi
    injection hq with hrr
    subst hrr
    have hk : k ∈ mEnds r' s i := hr i k hi h1
    exact Reach.head i k j hk (ih2 r' rfl hr (mEnds_le r' i hi k hk))

theorem mEnds_iff {s : List Char} :
    ∀ (r : Regex) (i j : Nat), i ≤ s.length → (j ∈ mEnds r s i ↔ RMatch s r i j) := by
  intro r
  induction r with
  | eps =>
    intro i j hi
    simp only [mEnds, List.mem_singleton]
    constructor
    · rintro rfl; exact RMatch.eps _
    · intro h; cases h; rfl
  | cls c =>
    intro i j hi
    simp only [mEnds]
    constructor
    · intro hj
      split at hj
      · next h =>
        simp only [List.mem_singleton] at hj
        subst hj
        exact RMatch.cls c _ h.1 h.2
      · exact absurd hj (List.not_mem_nil j)
    · intro h
      cases h with
      | cls _ _ hlt hs =>
        rw [if_pos ⟨hlt, hs⟩]
        exact List.mem_singleton.2 rfl
  | startAnchor =>
    intro i j hi
    simp only [mEnds]
    constructor
    · intro hj
      split at hj
      · next h =>
        simp only [List.mem_singleton] at hj
        subst hj; subst h
        exact RMatch.startAnchor
      · exact absurd hj (List.not_mem_nil j)
    · intro h
      cases h with
      | startAnchor => simp
  | endAnchor =>
    intro i j hi
    simp only [mEnds]
    constructor
    · intro hj
      split at hj
      · next h =>
        simp only [List.mem_singleton] at hj
        subst hj
        exact RMatch.endAnchor _ h
      · exact absurd hj (List.not_mem_nil j)
    · intro h
      cases h with
      | endAnchor _ hend => rw [if_pos hend]; exact List.mem_singleton.2 rfl
  | cat r1 r2 ih1 ih2 =>
    intro i j hi
    simp only [mEnds, List.mem_flatMap]
    constructor
    · rintro ⟨k, hk, hj⟩
      have hk' : k ≤ s.length := mEnds_le r1 i hi k hk
      exact RMatch.cat r1 r2 i k j ((ih1 i k hi).1 hk) ((ih2 k j hk').1 hj)
    · intro h
      cases h with
      | cat _ _ _ k _ h1 h2 =>
        have hk : k ∈ mEnds r1 s i := (ih1 i k hi).2 h1
        have hk' : k ≤ s.length := mEnds_le r1 i hi k hk
        exact ⟨k, hk, (ih2 k j hk').2 h2⟩
  | alt r1 r2 ih1 ih2 =>
    intro i j hi
    simp only [mEnds, List.mem_dedup, List.mem_append]
    constructor
    · rintro (h | h)
      · exact RMatch.altL r1 r2 i j ((ih1 i j hi).1 h)
      · exact RMatch.altR r1 r2 i j ((ih2 i j hi).1 h)
    · intro h
      cases h with
      | altL _ _ _ _ h => exact Or.inl ((ih1 i j hi).2 h)
      | altR _ _ _ _ h => exact Or.inr ((ih2 i j hi).2 h)
  | star r ih =>
    intro i j hi
    simp only [mEnds]
    constructor
    · intro hj
      have hreach : Reach (fun k => mEnds r s k) i j :=
        starIter_reach (s.length + 1) [i]
          (by intro a ha; simp only [List.mem_singleton] at ha; subst ha; exact Reach.refl _)
          j hj
      exact star_of_reach (fun a b ha hb => (ih a b ha).1 hb) i j hreach hi
    · intro h
      have hreach : Reach (fun k => mEnds r s k) i j :=
        reach_of_star h r rfl (fun a b ha hb => (ih a b ha).2 hb) hi
      exact reach_mem_starIter (fun a ha b hb => mEnds_le r a ha b hb) hi hreach

/-- `reSearch` is exactly: some in-range span matches. -/
theorem reSearch_iff {r : Regex} {s : List Char} :
    reSearch r s = true ↔ ∃ i j, i ≤ s.length ∧ RMatch s r i j := by
  simp only [reSearch, List.any_eq_true, List.mem_range, Bool.not_eq_true',
    ← Bool.not_eq_true, List.isEmpty_iff]
  constructor
  · rintro ⟨i, hi, hne⟩
    rcases List.exists_mem_of_ne_nil _ (by simpa using hne) with ⟨j, hj⟩
    exact ⟨i, j, Nat.lt_succ_iff.1 hi, (mEnds_iff r i j (Nat.lt_succ_iff.1 hi)).1 hj⟩
  · rintro ⟨i, j, hi, h⟩
    refine ⟨i, Nat.lt_succ_iff.2 hi, ?_⟩
    have : j ∈ mEnds r s i := (mEnds_iff r i j hi).2 h
    intro hnil
    rw [hnil] at this
    exact List.not_mem_nil j this

/-! ### Parser: model of `re.compile` syntax checking

A fuel-based recursive-descent parser for the subset of Python `re`
syntax the checker's templates and ordinary pattern fragments use:
literals, `.`, `^`, `$`, `*`, `+`, `?` (with lazy `?` suffix), `|`,
groups `(...)`, classes `[...]` with ranges and negation, and the
escapes `\d \D \w \W \s \S \n \t \r` plus escaped punctuation.
Unknown letter escapes, digit escapes (backreferences), `(?...)`
extension groups, `{m,n}` counted repeats and possessive quantifiers
are outside the modelled subset and are treated as parse failures;
an unmatched `{`/`}` or `]` is a literal, as in Python.
`none` models `re.error`.
-/

/-- Escape inside a bracket class. -/
def classEscItem (c : Char) : Option CItem :=
  if c = 'd' then some CItem.dcls
  else if c = 'D' then some CItem.ndcls
  else if c = 'w' then some CItem.wcls
  else if c = 'W' then some CItem.nwcls
  else if c = 's' then some CItem.scls
  else if c = 'S' then some CItem.nscls
  else if c = 'n' then some (CItem.single '\n')
  else if c = 't' then some (CItem.single '\t')
  else if c = 'r' then some (CItem.single '\r')
  else if c.isAlpha then none
  else if c.isDigit then none
  else some (CItem.single c)

/-- Escape outside a class, as a one-character matcher. -/
def escCC (c : Char) : Option CC :=
  if c = 'd' then some (CC.set false [CItem.dcls])
  else if c = 'D' then some (CC.set false [CItem.ndcls])
  else if c = 'w' then some (CC.set false [CItem.wcls])
  else if c = 'W' then some (CC.set false [CItem.nwcls])
  else if c = 's' then some (CC.set false [CItem.scls])
  else if c = 'S' then some (CC.set false [CItem.nscls])
  else if c = 'n' then some (CC.lit '\n')
  else if c = 't' then some (CC.lit '\t')
  else if c = 'r' then some (CC.lit '\r')
  else if c.isAlpha then none
  else if c.isDigit then none
  else some (CC.lit c)

/-- Items of a bracket class, up to and including the closing `]`.
Running out of input (or of fuel, which the callers seed above the input
length) is an unterminated class (an error).  An item is a range `a-b`
when a `-` sits between two plain characters, with `]` right after the
`-` closing the class ("`-` at the end is literal") and a reversed range
an error, as in Python. -/
def parseClassItems : Nat → List Char → Option (List CItem × List Char)
  | 0, _ => none
  | fuel + 1, input =>
      match input with
      | [] => none
      | a :: rest =>
          if a = ']' then some ([], rest)
          else if a = '\\' then
            match rest with
            | [] => none
            | c :: rest2 =>
                match classEscItem c with
                | none => none
                | some item =>
                    match parseClassItems fuel rest2 with
                    | none => none
                    | some (items, rem) => some (item :: items, rem)
          else
            match rest with
            | d :: b :: rest2 =>
                if d = '-' then
                  if b = ']' then some ([CItem.single a, CItem.single '-'], rest2)
                  else if b = '\\' then none
                  else if decide (a ≤ b) then
                    match parseClassItems fuel rest2 with
                    | none => none
                    | some (items, rem) => some (CItem.range a b :: items, rem)
                  else none
                else
                  match parseClassItems fuel rest with
                  | none => none
                  | some (items, rem) => some (CItem.single a :: items, rem)
            | _ =>
                match parseClassItems fuel rest with
                | none => none
                | some (items, rem) => some (CItem.single a :: items, rem)

/-- A `]` directly after the (possibly negated) class opening is a
literal member, as in Python. -/
def parseClassBody (input : List Char) : Option (List CItem × List Char) :=
  match input with
  | [] => none
  | c :: rest =>
      if c = ']' then
        match parseClassItems (rest.length + 1) rest with
        | none => none
        | some (items, rem) => some (CItem.single ']' :: items, rem)
      else parseClassItems (input.length + 1) input

/-- A full bracket class, after the opening `[`. -/
def parseClass (input : List Char) : Option (CC × List Char) :=
  match input with
  | [] => none
  | c :: rest =>
      if c = '^' then
        match parseClassBody rest with
        | none => none
        | some (items, rem) => some (CC.set true items, rem)
      else
        match parseClassBody input with
        | none => none
        | some (items, rem) => some (CC.set false items, rem)

/-- After a quantifier: an optional lazy `?`, then a further quantifier
is a "multiple repeat" error. -/
def quantTail (r : Regex) (rest : List Char) : Option (Regex × List Char) :=
  match rest with
  | [] => some (r, [])
  | c :: r2 =>
      if c = '?' then
        match r2 with
        | [] => some (r, [])
        | d :: _ =>
            if d = '*' ∨ d = '+' ∨ d = '?' then none else some (r, r2)
      else if c = '*' ∨ c = '+' then none
      else some (r, c :: r2)

mutual

/-- Alternation level: `concat ('|' alt)?`. Stops at `)` or end. -/
def parseAlt : Nat → List Char → Option (Regex × List Char)
  | 0, _ => none
  | fuel + 1, input =>
      match parseConcat fuel input with
      | none => none
      | some (r, rest) =>
          match rest with
          | [] => some (r, [])
          | c :: rest2 =>
              if c = '|' then
                match parseAlt fuel rest2 with
                | none => none
                | some (r2, rest3) => some (Regex.alt r r2, rest3)
              else some (r, c :: rest2)

/-- Concatenation level: a (possibly empty) run of pieces, stopping at
`|`, `)` or end; folded right-nested with `eps`. -/
def parseConcat : Nat → List Char → Option (Regex × List Char)
  | 0, _ => none
  | fuel + 1, input =>
      match input with
      | [] => some (Regex.eps, [])
      | c :: _ =>
          if c = ')' ∨ c = '|' then some (Regex.eps, input)
          else
            match parsePiece fuel input with
            | none => none
            | some (a, rest) =>
                match parseConcat fuel rest with
                | none => none
                | some (r, rest2) => some (Regex.cat a r, rest2)

/-- One atom with an optional quantifier (`+` and `?` desugared). -/
def parsePiece : Nat → List Char → Option (Regex × List Char)
  | 0, _ => none
  | fuel + 1, input =>
      match parseAtom fuel input with
      | none => none
      | some (a, rest) =>
          match rest with
          | [] => some (a, [])
          | c :: r2 =>
              if c = '*' then quantTail (Regex.star a) r2
              else if c = '+' then quantTail (Regex.cat a (Regex.star a)) r2
              else if c = '?' then quantTail (Regex.alt a Regex.eps) r2
              else some (a, c :: r2)

/-- A single atom. A quantifier with nothing before it, an unbalanced
`(`, or a bad escape is an error; `)` and `|` never start an atom. -/
def parseAtom : Nat → List Char → Option (Regex × List Char)
  | 0, _ => none
  | fuel + 1, input =>
      match input with
      | [] => none
      | c :: rest =>
          if c = '(' then
            match parseAlt fuel rest with
            | none => none
            | some (r, rest2) =>
                match rest2 with
                | [] => none
                | d :: rest3 => if d = ')' then some (r, rest3) else none
          else if c = '[' then
            match parseClass rest with
            | none => none
            | some (cc, rem) => some (Regex.cls cc, rem)
          else if c = '.' then some (Regex.cls CC.dot, rest)
          else if c = '^' then some (Regex.startAnchor, rest)
          else if c = '$' then some (Regex.endAnchor, rest)
          else if c = '\\' then
            match rest with
            | [] => none
            | d :: rest2 =>
                match escCC d with
                | none => none
                | some cc => some (Regex.cls cc, rest2)
          else if c = '*' ∨ c = '+' ∨ c = '?' ∨ c = ')' ∨ c = '|' then none
          else some (Regex.cls (CC.lit c), rest)

end

/-- Fuel sufficient for any parse of `s` (each parsing step consumes fuel,
and at most four nested levels enter between consumed characters). -/
def parseFuel (s : List Char) : Nat :=
  4 * s.length + 4

/-- Model of `re.compile`: parse the whole pattern; leftover input (an
unbalanced `)`) is an error. -/
def parseRegex (s : String) : Option Regex :=
  match parseAlt (parseFuel s.data) s.data with
  | some (r, []) => some r
  | _ => none

/-- The template of `compile_patterns` for `r1`/`r2` fragments:
`f".*({pattern})([._-]).*"`. -/
def embedSep (frag : String) : String :=
  ".*(" ++ frag ++ ")([._-]).*"

/-- The template of `compile_patterns` for `ignore` fragments:
`f".*({pattern}).*"`. -/
def embedAny (frag : String) : String :=
  ".*(" ++ frag ++ ").*"

/-! ### Parser meta-lemmas

Monotonicity in fuel, and stability of successful parses under
appending input past the point where the parse stopped.  These drive the
compositional parse of the checker's templates (claim C4).
-/

theorem parseClassItems_nil : ∀ fuel, parseClassItems fuel [] = none := by
  intro fuel
  cases fuel with
  | zero => rfl
  | succ n => rfl

theorem parseClassItems_mono :
    ∀ fuel fuel', fuel ≤ fuel' → ∀ input v,
      parseClassItems fuel input = some v → parseClassItems fuel' input = some v := by
  intro fuel
  induction fuel with
  | zero => intro fuel' _ input v h; simp [parseClassItems] at h
  | succ n ih =>
    intro fuel' hle input v h
    obtain ⟨m, rfl, hnm⟩ : ∃ m, fuel' = m + 1 ∧ n ≤ m := ⟨fuel' - 1, by omega, by omega⟩
    simp only [parseClassItems] at h ⊢
    cases input with
    | nil => exact h
    | cons a rest =>
      by_cases ha1 : a = ']'
      · simp only [if_pos ha1] at h ⊢; exact h
      · simp only [if_neg ha1] at h ⊢
        by_cases ha2 : a = '\\'
        · simp only [if_pos ha2] at h ⊢
          cases rest with
          | nil => exact h
          | cons c rest2 =>
            try dsimp only at h ⊢
            cases hesc : classEscItem c with
            | none => rw [hesc] at h; cases h
            | some item =>
              rw [hesc] at h
              try dsimp only at h ⊢
              cases hrec : parseClassItems n rest2 with
              | none => rw [hrec] at h; cases h
              | some p =>
                obtain ⟨items2, rem2⟩ := p
                rw [hrec] at h
                rw [ih m hnm rest2 (items2, rem2) hrec]
                exact h
        · simp only [if_neg ha2] at h ⊢
          cases rest with
          | nil =>
            rw [parseClassItems_nil] at h
            try dsimp only at h
            cases h
          | cons d rest' =>
            cases rest' with
            | nil =>
              try dsimp only at h ⊢
              cases hrec : parseClassItems n [d] with
              | none => rw [hrec] at h; cases h
              | some p =>
                obtain ⟨items2, rem2⟩ := p
                rw [hrec] at h
                rw [ih m hnm [d] (items2, rem2) hrec]
                exact h
            | cons b rest2 =>
              try dsimp only at h ⊢
              by_cases hd : d = '-'
              · simp only [if_pos hd] at h ⊢
                by_cases hb1 : b = ']'
                · simp only [if_pos hb1] at h ⊢; exact h
                · simp only [if_neg hb1] at h ⊢
                  by_cases hb2 : b = '\\'
                  · simp only [if_pos hb2] at h; cases h
                  · simp only [if_neg hb2] at h ⊢
                    by_cases hab : decide (a ≤ b) = true
                    · simp only [if_pos hab] at h ⊢
                      cases hrec : parseClassItems n rest2 with
                      | none => rw [hrec] at h; cases h
                      | some p =>
                        obtain ⟨items2, rem2⟩ := p
                        rw [hrec] at h
                        rw [ih m hnm rest2 (items2, rem2) hrec]
                        exact h
                    · simp only [if_neg hab] at h; cases h
              · simp only [if_neg hd] at h ⊢
                cases hrec : parseClassItems n (d :: b :: rest2) with
                | none => rw [hrec] at h; cases h
                | some p =>
                  obtain ⟨items2, rem2⟩ := p
                  rw [hrec] at h
                  rw [ih m hnm _ (items2, rem2) hrec]
                  exact h

theorem parseClassItems_append :
    ∀ fuel input items rem (t : List Char),
      parseClassItems fuel input = some (items, rem) →
      parseClassItems fuel (input ++ t) = some (items, rem ++ t) := by
  intro fuel
  induction fuel with
  | zero => intro input items rem t h; simp [parseClassItems] at h
  | succ n ih =>
    intro input items rem t h
    simp only [parseClassItems] at h ⊢
    cases input with
    | nil => cases h
    | cons a rest =>
      simp only [List.cons_append]
      by_cases ha1 : a = ']'
      · simp only [if_pos ha1] at h ⊢
        injection h with h
        injection h with h1 h2
        subst h1; subst h2
        rfl
      · simp only [if_neg ha1] at h ⊢
        by_cases ha2 : a = '\\'
        · simp only [if_pos ha2] at h ⊢
          cases rest with
          | nil => cases h
          | cons c rest2 =>
            simp only [List.cons_append]
            try dsimp only at h ⊢
            cases hesc : classEscItem c with
            | none => rw [hesc] at h; cases h
            | some item =>
              rw [hesc] at h
              try dsimp only at h ⊢
              cases hrec : parseClassItems n rest2 with
              | none => rw [hrec] at h; cases h
              | some p =>
                obtain ⟨items2, rem2⟩ := p
                rw [hrec] at h
                injection h with h
                injection h with h1 h2
                subst h1; subst h2
                rw [ih rest2 items2 rem2 t hrec]
        · simp only [if_neg ha2] at h ⊢
          cases rest with
          | nil =>
            rw [parseClassItems_nil] at h
            try dsimp only at h
            cases h
          | cons d rest' =>
            cases rest' with
            | nil =>
              -- one-character lookahead: the original parse recursed on `[d]`
              try dsimp only at h
              cases hrec : parseClassItems n [d] with
              | none => rw [hrec] at h; cases h
              | some p =>
                obtain ⟨items2, rem2⟩ := p
                rw [hrec] at h
                injection h with h
                injection h with h1 h2
                subst h1; subst h2
                cases t with
                | nil =>
                  simp only [List.append_nil]
                  try dsimp only
                  rw [hrec]
                | cons u us =>
                  by_cases hd : d = '-'
                  · exfalso
                    subst hd
                    cases n with
                    | zero => simp [parseClassItems] at hrec
                    | succ k =>
                      have h1 : ¬ ('-' : Char) = ']' := by decide
                      have h2 : ¬ ('-' : Char) = '\\' := by decide
                      simp [parseClassItems, if_neg h1, if_neg h2,
                        parseClassItems_nil] at hrec
                  · have hext := ih [d] items2 rem2 (u :: us) hrec
                    simp only [List.cons_append, List.nil_append] at hext ⊢
                    try dsimp only
                    rw [if_neg hd, hext]
            | cons b rest2 =>
              simp only [List.cons_append]
              try dsimp only at h ⊢
              by_cases hd : d = '-'
              · simp only [if_pos hd] at h ⊢
                by_cases hb1 : b = ']'
                · simp only [if_pos hb1] at h ⊢
                  injection h with h
                  injection h with h1 h2
                  subst h1; subst h2
                  rfl
                · simp only [if_neg hb1] at h ⊢
                  by_cases hb2 : b = '\\'
                  · simp only [if_pos hb2] at h; cases h
                  · simp only [if_neg hb2] at h ⊢
                    by_cases hab : decide (a ≤ b) = true
                    · simp only [if_pos hab] at h ⊢
                      cases hrec : parseClassItems n rest2 with
                      | none => rw [hrec] at h; cases h
                      | some p =>
                        obtain ⟨items2, rem2⟩ := p
                        rw [hrec] at h
                        injection h with h
                        injection h with h1 h2
                        subst h1; subst h2
                        rw [ih rest2 items2 rem2 t hrec]
                    · simp only [if_neg hab] at h; cases h
              · simp only [if_neg hd] at h ⊢
                cases hrec : parseClassItems n (d :: b :: rest2) with
                | none => rw [hrec] at h; cases h
                | some p =>
                  obtain ⟨items2, rem2⟩ := p
                  rw [hrec] at h
                  injection h with h
                  injection h with h1 h2
                  subst h1; subst h2
                  have hext := ih (d :: b :: rest2) items2 rem2 t hrec
                  simp only [List.cons_append] at hext
                  rw [hext]

theorem parseClassBody_append (input : List Char) (items : List CItem) (rem t : List Char)
    (h : parseClassBody input = some (items, rem)) :
    parseClassBody (input ++ t) = some (items, rem ++ t) := by
  cases input with
  | nil => simp [parseClassBody] at h
  | cons c rest =>
    simp only [parseClassBody, List.cons_append] at h ⊢
    by_cases hc : c = ']'
    · simp only [if_pos hc] at h ⊢
      cases hrec : parseClassItems (rest.length + 1) rest with
      | none => rw [hrec] at h; cases h
      | some p =>
        obtain ⟨items2, rem2⟩ := p
        rw [hrec] at h
        injection h with h
        injection h with h1 h2
        subst h1; subst h2
        have hx := parseClassItems_append _ rest items2 rem2 t hrec
        have hy := parseClassItems_mono (rest.length + 1) ((rest ++ t).length + 1)
          (by simp) _ _ hx
        rw [hy]
    · simp only [if_neg hc] at h ⊢
      have hx := parseClassItems_append _ (c :: rest) items rem t h
      simp only [List.cons_append] at hx
      exact parseClassItems_mono _ _ (by simp) _ _ hx

theorem parseClass_append (input : List Char) (cc : CC) (rem t : List Char)
    (h : parseClass input = some (cc, rem)) :
    parseClass (input ++ t) = some (cc, rem ++ t) := by
  cases input with
  | nil => simp [parseClass] at h
  | cons c rest =>
    simp only [parseClass, List.cons_append] at h ⊢
    by_cases hc : c = '^'
    · simp only [if_pos hc] at h ⊢
      cases hb : parseClassBody rest with
      | none => rw [hb] at h; cases h
      | some p =>
        obtain ⟨items, rem2⟩ := p
        rw [hb] at h
        injection h with h
        injection h with h1 h2
        subst h1; subst h2
        rw [parseClassBody_append rest items rem2 t hb]
    · simp only [if_neg hc] at h ⊢
      cases hb : parseClassBody (c :: rest) with
      | none => rw [hb] at h; cases h
      | some p =>
        obtain ⟨items, rem2⟩ := p
        rw [hb] at h
        injection h with h
        injection h with h1 h2
        subst h1; subst h2
        have hx := parseClassBody_append (c :: rest) items rem2 t hb
        simp only [List.cons_append] at hx
        rw [hx]

/-- Fuel monotonicity of the four mutually recursive parsing levels. -/
theorem parse_mono :
    ∀ fuel fuel', fuel ≤ fuel' →
      (∀ input v, parseAlt fuel input = some v → parseAlt fuel' input = some v) ∧
      (∀ input v, parseConcat fuel input = some v → parseConcat fuel' input = some v) ∧
      (∀ input v, parsePiece fuel input = some v → parsePiece fuel' input = some v) ∧
      (∀ input v, parseAtom fuel input = some v → parseAtom fuel' input = some v) := by
  intro fuel
  induction fuel with
  | zero =>
    intro fuel' _
    refine ⟨?_, ?_, ?_, ?_⟩ <;> intro input v h
    · simp [parseAlt] at h
    · simp [parseConcat] at h
    · simp [parsePiece] at h
    · simp [parseAtom] at h
  | succ n ih =>
    intro fuel' hle
    obtain ⟨m, rfl, hnm⟩ : ∃ m, fuel' = m + 1 ∧ n ≤ m := ⟨fuel' - 1, by omega, by omega⟩
    obtain ⟨ihA, ihC, ihP, ihT⟩ := ih m hnm
    refine ⟨?_, ?_, ?_, ?_⟩
    · intro input v h
      simp only [parseAlt] at h ⊢
      cases hc : parseConcat n input with
      | none => rw [hc] at h; cases h
      | some rc =>
        rw [hc] at h
        rw [ihC input rc hc]
        obtain ⟨r, rest⟩ := rc
        cases rest with
        | nil => exact h
        | cons c rest2 =>
          try dsimp only at h ⊢
          by_cases hbar : c = '|'
          · simp only [if_pos hbar] at h ⊢
            cases ha : parseAlt n rest2 with
            | none => rw [ha] at h; cases h
            | some ra => rw [ha] at h; rw [ihA rest2 ra ha]; exact h
          · simp only [if_neg hbar] at h ⊢; exact h
    · intro input v h
      simp only [parseConcat] at h ⊢
      cases input with
      | nil => exact h
      | cons c rest =>
        by_cases hstop : c = ')' ∨ c = '|'
        · simp only [if_pos hstop] at h ⊢; exact h
        · simp only [if_neg hstop] at h ⊢
          cases hp : parsePiece n (c :: rest) with
          | none => rw [hp] at h; cases h
          | some rp =>
            rw [hp] at h
            rw [ihP _ rp hp]
            obtain ⟨a, rest1⟩ := rp
            try dsimp only at h ⊢
            cases hc2 : parseConcat n rest1 with
            | none => rw [hc2] at h; cases h
            | some rc2 => rw [hc2] at h; rw [ihC _ rc2 hc2]; exact h
    · intro input v h
      simp only [parsePiece] at h ⊢
      cases ha : parseAtom n input with
      | none => rw [ha] at h; cases h
      | some ra =>
        rw [ha] at h
        rw [ihT _ ra ha]
        exact h
    · intro input v h
      simp only [parseAtom] at h ⊢
      cases input with
      | nil => exact h
      | cons c rest =>
        by_cases h1 : c = '('
        · simp only [if_pos h1] at h ⊢
          cases ha : parseAlt n rest with
          | none => rw [ha] at h; cases h
          | some ra => rw [ha] at h; rw [ihA _ ra ha]; exact h
        · simp only [if_neg h1] at h ⊢
          exact h

theorem quantTail_append (r' : Regex) (rest : List Char) (r : Regex) (rem u : List Char)
    (h : quantTail r' rest = some (r, rem)) :
    quantTail r' (rest ++ ')' :: u) = some (r, rem ++ ')' :: u) := by
  cases rest with
  | nil =>
    simp only [quantTail] at h
    injection h with h
    injection h with h1 h2
    subst h1; subst h2
    simp [quantTail]
  | cons c r2 =>
    simp only [quantTail, List.cons_append] at h ⊢
    by_cases hc : c = '?'
    · simp only [if_pos hc] at h ⊢
      cases r2 with
      | nil =>
        injection h with h
        injection h with h1 h2
        subst h1; subst h2
        simp
      | cons d r3 =>
        simp only [List.cons_append]
        try dsimp only [List.cons_append, List.nil_append] at h ⊢
        by_cases hd : d = '*' ∨ d = '+' ∨ d = '?'
        · simp only [if_pos hd] at h; cases h
        · simp only [if_neg hd] at h ⊢
          injection h with h
          injection h with h1 h2
          subst h1; subst h2
          rfl
    · simp only [if_neg hc] at h ⊢
      by_cases hsq : c = '*' ∨ c = '+'
      · simp only [if_pos hsq] at h; cases h
      · simp only [if_neg hsq] at h ⊢
        injection h with h
        injection h with h1 h2
        subst h1; subst h2
        rfl

/-- A successful parse is stable under appending input starting with `)`:
the parse stops at the same place and leaves the appended input in the
remainder.  This is what makes the group-wrapped templates compose. -/
theorem parse_append :
    ∀ fuel,
      (∀ input r rem (u : List Char), parseAlt fuel input = some (r, rem) →
        parseAlt fuel (input ++ ')' :: u) = some (r, rem ++ ')' :: u)) ∧
      (∀ input r rem (u : List Char), parseConcat fuel input = some (r, rem) →
        parseConcat fuel (input ++ ')' :: u) = some (r, rem ++ ')' :: u)) ∧
      (∀ input r rem (u : List Char), parsePiece fuel input = some (r, rem) →
        parsePiece fuel (input ++ ')' :: u) = some (r, rem ++ ')' :: u)) ∧
      (∀ input r rem (u : List Char), parseAtom fuel input = some (r, rem) →
        parseAtom fuel (input ++ ')' :: u) = some (r, rem ++ ')' :: u)) := by
  intro fuel
  induction fuel with
  | zero =>
    refine ⟨?_, ?_, ?_, ?_⟩ <;> intro input r rem u h
    · simp [parseAlt] at h
    · simp [parseConcat] at h
    · simp [parsePiece] at h
    · simp [parseAtom] at h
  | succ n ih =>
    obtain ⟨ihA, ihC, ihP, ihT⟩ := ih
    refine ⟨?_, ?_, ?_, ?_⟩
    · intro input r rem u h
      simp only [parseAlt] at h ⊢
      cases hc : parseConcat n input with
      | none => rw [hc] at h; cases h
      | some rc =>
        obtain ⟨r1, rest1⟩ := rc
        rw [hc] at h
        rw [ihC input r1 rest1 u hc]
        cases rest1 with
        | nil =>
          try dsimp only [List.cons_append, List.nil_append] at h ⊢
          injection h with h
          injection h with h1 h2
          subst h1; subst h2
          have : ¬ (')' : Char) = '|' := by decide
          simp [this]
        | cons c rest2 =>
          try dsimp only [List.cons_append, List.nil_append] at h ⊢
          by_cases hbar : c = '|'
          · simp only [if_pos hbar] at h ⊢
            cases ha : parseAlt n rest2 with
            | none => rw [ha] at h; cases h
            | some ra =>
              obtain ⟨r2, rest3⟩ := ra
              rw [ha] at h
              rw [ihA rest2 r2 rest3 u ha]
              injection h with h
              injection h with h1 h2
              subst h1; subst h2
              rfl
          · simp only [if_neg hbar] at h ⊢
            injection h with h
            injection h with h1 h2
            subst h1; subst h2
            rfl
    · intro input r rem u h
      simp only [parseConcat] at h ⊢
      cases input with
      | nil =>
        injection h with h
        injection h with h1 h2
        subst h1; subst h2
        have : ((')' : Char) = ')' ∨ (')' : Char) = '|') := Or.inl rfl
        simp [this]
      | cons c rest =>
        simp only [List.cons_append]
        by_cases hstop : c = ')' ∨ c = '|'
        · simp only [if_pos hstop] at h ⊢
          injection h with h
          injection h with h1 h2
          subst h1; subst h2
          rfl
        · simp only [if_neg hstop] at h ⊢
          cases hp : parsePiece n (c :: rest) with
          | none => rw [hp] at h; cases h
          | some rp =>
            obtain ⟨a, rest1⟩ := rp
            rw [hp] at h
            have hp2 := ihP (c :: rest) a rest1 u hp
            simp only [List.cons_append] at hp2
            rw [hp2]
            try dsimp only [List.cons_append, List.nil_append] at h ⊢
            cases hc2 : parseConcat n rest1 with
            | none => rw [hc2] at h; cases h
            | some rc2 =>
              obtain ⟨r2, rest2⟩ := rc2
              rw [hc2] at h
              rw [ihC rest1 r2 rest2 u hc2]
              injection h with h
              injection h with h1 h2
              subst h1; subst h2
              rfl
    · intro input r rem u h
      simp only [parsePiece] at h ⊢
      cases ha : parseAtom n input with
      | none => rw [ha] at h; cases h
      | some ra =>
        obtain ⟨a, rest1⟩ := ra
        rw [ha] at h
        rw [ihT input a rest1 u ha]
        cases rest1 with
        | nil =>
          try dsimp only [List.cons_append, List.nil_append] at h ⊢
          injection h with h
          injection h with h1 h2
          subst h1; subst h2
          have h1 : ¬ (')' : Char) = '*' := by decide
          have h2 : ¬ (')' : Char) = '+' := by decide
          have h3 : ¬ (')' : Char) = '?' := by decide
          simp [h1, h2, h3]
        | cons c r2 =>
          try dsimp only [List.cons_append, List.nil_append] at h ⊢
          by_cases hq1 : c = '*'
          · simp only [if_pos hq1] at h ⊢
            exact quantTail_append _ r2 r rem u h
          · simp only [if_neg hq1] at h ⊢
            by_cases hq2 : c = '+'
            · simp only [if_pos hq2] at h ⊢
              exact quantTail_append _ r2 r rem u h
            · simp only [if_neg hq2] at h ⊢
              by_cases hq3 : c = '?'
              · simp only [if_pos hq3] at h ⊢
                exact quantTail_append _ r2 r rem u h
              · simp only [if_neg hq3] at h ⊢
                injection h with h
                injection h with h1 h2
                subst h1; subst h2
                rfl
    · intro input r rem u h
      simp only [parseAtom] at h ⊢
      cases input with
      | nil => cases h
      | cons c rest =>
        simp only [List.cons_append]
        by_cases h1 : c = '('
        · simp only [if_pos h1] at h ⊢
          cases ha : parseAlt n rest with
          | none => rw [ha] at h; cases h
          | some ra =>
            obtain ⟨r1, rest2⟩ := ra
            rw [ha] at h
            rw [ihA rest r1 rest2 u ha]
            cases rest2 with
            | nil => cases h
            | cons d rest3 =>
              try dsimp only [List.cons_append, List.nil_append] at h ⊢
              by_cases hd : d = ')'
              · simp only [if_pos hd] at h ⊢
                injection h with h
                injection h with h1 h2
                subst h1; subst h2
                rfl
              · simp only [if_neg hd] at h; cases h
        · simp only [if_neg h1] at h ⊢
          by_cases h2 : c = '['
          · simp only [if_pos h2] at h ⊢
            cases hcl : parseClass rest with
            | none => rw [hcl] at h; cases h
            | some pc =>
              obtain ⟨cc, rem1⟩ := pc
              rw [hcl] at h
              rw [parseClass_append rest cc rem1 (')' :: u) hcl]
              injection h with h
              injection h with h1 h2
              subst h1; subst h2
              rfl
          · simp only [if_neg h2] at h ⊢
            by_cases h3 : c = '.'
            · simp only [if_pos h3] at h ⊢
              injection h with h
              injection h with h1 h2
              subst h1; subst h2
              rfl
            · simp only [if_neg h3] at h ⊢
              by_cases h4 : c = '^'
              · simp only [if_pos h4] at h ⊢
                injection h with h
                injection h with h1 h2
                subst h1; subst h2
                rfl
              · simp only [if_neg h4] at h ⊢
                by_cases h5 : c = '$'
                · simp only [if_pos h5] at h ⊢
                  injection h with h
                  injection h with h1 h2
                  subst h1; subst h2
                  rfl
                · simp only [if_neg h5] at h ⊢
                  by_cases h6 : c = '\\'
                  · simp only [if_pos h6] at h ⊢
                    cases rest with
                    | nil => cases h
                    | cons d rest2 =>
                      try dsimp only [List.cons_append, List.nil_append] at h ⊢
                      cases hesc : escCC d with
                      | none => rw [hesc] at h; cases h
                      | some cc =>
                        rw [hesc] at h
                        try dsimp only [List.cons_append, List.nil_append] at h ⊢
                        injection h with h
                        injection h with h1 h2
                        subst h1; subst h2
                        rfl
                  · simp only [if_neg h6] at h ⊢
                    by_cases h7 : c = '*' ∨ c = '+' ∨ c = '?' ∨ c = ')' ∨ c = '|'
                    · simp only [if_pos h7] at h; cases h
                    · simp only [if_neg h7] at h ⊢
                      injection h with h
                      injection h with h1 h2
                      subst h1; subst h2
                      rfl

/-- Hand-written one-step unfolding of `parseAtom` (its automatic
unfolding theorem is not generated). -/
theorem parseAtom_succ_cons (fuel : Nat) (c : Char) (rest : List Char) :
    parseAtom (fuel + 1) (c :: rest) =
      (if c = '(' then
        match parseAlt fuel rest with
        | none => none
        | some (r, rest2) =>
            match rest2 with
            | [] => none
            | d :: rest3 => if d = ')' then some (r, rest3) else none
      else if c = '[' then
        match parseClass rest with
        | none => none
        | some (cc, rem) => some (Regex.cls cc, rem)
      else if c = '.' then some (Regex.cls CC.dot, rest)
      else if c = '^' then some (Regex.startAnchor, rest)
      else if c = '$' then some (Regex.endAnchor, rest)
      else if c = '\\' then
        match rest with
        | [] => none
        | d :: rest2 =>
            match escCC d with
            | none => none
            | some cc => some (Regex.cls cc, rest2)
      else if c = '*' ∨ c = '+' ∨ c = '?' ∨ c = ')' ∨ c = '|' then none
      else some (Regex.cls (CC.lit c), rest)) := rfl

/-- The separator class `[._-]` as the parser produces it. -/
def sepCC : CC := CC.set false [CItem.single '.', CItem.single '_', CItem.single '-']

/-- The AST `re.compile(f".*({p})([._-]).*")` yields for a fragment
whose own parse is `fr`. -/
def tmplSep (fr : Regex) : Regex :=
  Regex.cat (.star (.cls .dot))
    (.cat fr (.cat (.cat (.cls sepCC) .eps) (.cat (.star (.cls .dot)) .eps)))

/-- The AST `re.compile(f".*({p}).*")` yields for a fragment whose own
parse is `fr`. -/
def tmplAny (fr : Regex) : Regex :=
  Regex.cat (.star (.cls .dot)) (.cat fr (.cat (.star (.cls .dot)) .eps))

theorem parseAlt_tmplSep (n : Nat) (fd : List Char) (fr : Regex)
    (hkey : parseAlt (n + 5) (fd ++ [')', '(', '[', '.', '_', '-', ']', ')', '.', '*']) =
      some (fr, [')', '(', '[', '.', '_', '-', ']', ')', '.', '*'])) :
    parseAlt (n + 10)
        ('.' :: '*' :: '(' :: (fd ++ [')', '(', '[', '.', '_', '-', ']', ')', '.', '*'])) =
      some (tmplSep fr, []) := by
  have hg2 : parseAlt (n+4) ['[', '.', '_', '-', ']', ')', '.', '*'] =
      some (Regex.cat (.cls sepCC) .eps, [')', '.', '*']) := by
    simp [parseAlt, parseConcat, parsePiece, parseAtom, parseClass, parseClassBody,
      parseClassItems, classEscItem, quantTail, sepCC]
  have hatom2 : parseAtom (n+5) ['(', '[', '.', '_', '-', ']', ')', '.', '*'] =
      some (Regex.cat (.cls sepCC) .eps, ['.', '*']) := by
    rw [show n + 5 = (n + 4) + 1 from rfl, parseAtom_succ_cons]
    simp [hg2]
  have hpiece2 : parsePiece (n+6) ['(', '[', '.', '_', '-', ']', ')', '.', '*'] =
      some (Regex.cat (.cls sepCC) .eps, ['.', '*']) := by
    rw [parsePiece.eq_2]
    simp [hatom2]
  have htail : parseConcat (n+6) ['.', '*'] =
      some (Regex.cat (.star (.cls .dot)) .eps, []) := by
    simp [parseConcat, parsePiece, parseAtom, quantTail]
  have hconcat2 : parseConcat (n+7) ['(', '[', '.', '_', '-', ']', ')', '.', '*'] =
      some (Regex.cat (Regex.cat (.cls sepCC) .eps)
        (Regex.cat (.star (.cls .dot)) .eps), []) := by
    rw [parseConcat.eq_3]
    simp [hpiece2, htail]
  have hatom1 : parseAtom (n+6)
      ('(' :: (fd ++ [')', '(', '[', '.', '_', '-', ']', ')', '.', '*'])) =
      some (fr, ['(', '[', '.', '_', '-', ']', ')', '.', '*']) := by
    rw [show n + 6 = (n + 5) + 1 from rfl, parseAtom_succ_cons]
    simp [hkey]
  have hpiece1 : parsePiece (n+7)
      ('(' :: (fd ++ [')', '(', '[', '.', '_', '-', ']', ')', '.', '*'])) =
      some (fr, ['(', '[', '.', '_', '-', ']', ')', '.', '*']) := by
    rw [parsePiece.eq_2]
    simp [hatom1]
  have hconcat1 : parseConcat (n+8)
      ('(' :: (fd ++ [')', '(', '[', '.', '_', '-', ']', ')', '.', '*'])) =
      some (Regex.cat fr (Regex.cat (Regex.cat (.cls sepCC) .eps)
        (Regex.cat (.star (.cls .dot)) .eps)), []) := by
    rw [parseConcat.eq_3]
    simp [hpiece1, hconcat2]
  have hpiece0 : parsePiece (n+8)
      ('.' :: '*' :: '(' :: (fd ++ [')', '(', '[', '.', '_', '-', ']', ')', '.', '*'])) =
      some (Regex.star (.cls .dot),
        '(' :: (fd ++ [')', '(', '[', '.', '_', '-', ']', ')', '.', '*'])) := by
    rw [parsePiece.eq_2]
    simp [parseAtom, quantTail]
  have hconcat0 : parseConcat (n+9)
      ('.' :: '*' :: '(' :: (fd ++ [')', '(', '[', '.', '_', '-', ']', ')', '.', '*'])) =
      some (tmplSep fr, []) := by
    rw [parseConcat.eq_3]
    simp [hpiece0, hconcat1, tmplSep]
  rw [parseAlt.eq_2]
  simp [hconcat0]

theorem parseAlt_tmplAny (n : Nat) (fd : List Char) (fr : Regex)
    (hkey : parseAlt (n + 5) (fd ++ [')', '.', '*']) = some (fr, [')', '.', '*'])) :
    parseAlt (n + 10) ('.' :: '*' :: '(' :: (fd ++ [')', '.', '*'])) =
      some (tmplAny fr, []) := by
  have hatom1 : parseAtom (n+6) ('(' :: (fd ++ [')', '.', '*'])) =
      some (fr, ['.', '*']) := by
    rw [show n + 6 = (n + 5) + 1 from rfl, parseAtom_succ_cons]
    simp [hkey]
  have hpiece1 : parsePiece (n+7) ('(' :: (fd ++ [')', '.', '*'])) =
      some (fr, ['.', '*']) := by
    rw [parsePiece.eq_2]
    simp [hatom1]
  have htail : parseConcat (n+7) ['.', '*'] =
      some (Regex.cat (.star (.cls .dot)) .eps, []) := by
    simp [parseConcat, parsePiece, parseAtom, quantTail]
  have hconcat1 : parseConcat (n+8) ('(' :: (fd ++ [')', '.', '*'])) =
      some (Regex.cat fr (Regex.cat (.star (.cls .dot)) .eps), []) := by
    rw [parseConcat.eq_3]
    simp [hpiece1, htail]
  have hpiece0 : parsePiece (n+8) ('.' :: '*' :: '(' :: (fd ++ [')', '.', '*'])) =
      some (Regex.star (.cls .dot), '(' :: (fd ++ [')', '.', '*'])) := by
    rw [parsePiece.eq_2]
    simp [parseAtom, quantTail]
  have hconcat0 : parseConcat (n+9) ('.' :: '*' :: '(' :: (fd ++ [')', '.', '*'])) =
      some (tmplAny fr, []) := by
    rw [parseConcat.eq_3]
    simp [hpiece0, hconcat1, tmplAny]
  rw [parseAlt.eq_2]
  simp [hconcat0]

/-- Inversion of a successful `parseRegex`. -/
theorem parseRegex_some_inv {s : String} {fr : Regex} (h : parseRegex s = some fr) :
    parseAlt (parseFuel s.data) s.data = some (fr, []) := by
  simp only [parseRegex] at h
  cases hA : parseAlt (parseFuel s.data) s.data with
  | none => rw [hA] at h; cases h
  | some p =>
    obtain ⟨r, rem⟩ := p
    rw [hA] at h
    cases rem with
    | nil =>
      try dsimp only at h
      injection h with h
      rw [h]
    | cons c rest =>
      try dsimp only at h
      cases h

/-- Compositionality of compilation: a fragment that parses to `fr` makes
its `r1`/`r2` template parse to `tmplSep fr`. -/
theorem parseRegex_embedSep (frag : String) (fr : Regex) (h : parseRegex frag = some fr) :
    parseRegex (embedSep frag) = some (tmplSep fr) := by
  have hA := parseRegex_some_inv h
  have hApp := (parse_append (parseFuel frag.data)).1 frag.data fr []
    ['(', '[', '.', '_', '-', ']', ')', '.', '*'] hA
  simp only [List.nil_append] at hApp
  have hdata : (embedSep frag).data =
      '.' :: '*' :: '(' :: (frag.data ++ [')', '(', '[', '.', '_', '-', ']', ')', '.', '*']) := by
    simp [embedSep, String.data_append]
  have hlen : parseFuel
      ('.' :: '*' :: '(' :: (frag.data ++ [')', '(', '[', '.', '_', '-', ']', ')', '.', '*'])) =
      (4 * frag.data.length + 46) + 10 := by
    simp only [parseFuel, List.length_cons, List.length_append, List.length_nil]
    omega
  have hmono := (parse_mono (parseFuel frag.data) ((4 * frag.data.length + 46) + 5)
    (by simp only [parseFuel]; omega)).1 _ _ hApp
  have htm := parseAlt_tmplSep (4 * frag.data.length + 46) frag.data fr hmono
  simp only [parseRegex, hdata, hlen, htm]

/-- Compositionality of compilation: a fragment that parses to `fr` makes
its `ignore` template parse to `tmplAny fr`. -/
theorem parseRegex_embedAny (frag : String) (fr : Regex) (h : parseRegex frag = some fr) :
    parseRegex (embedAny frag) = some (tmplAny fr) := by
  have hA := parseRegex_some_inv h
  have hApp := (parse_append (parseFuel frag.data)).1 frag.data fr [] ['.', '*'] hA
  simp only [List.nil_append] at hApp
  have hdata : (embedAny frag).data =
      '.' :: '*' :: '(' :: (frag.data ++ [')', '.', '*']) := by
    simp [embedAny, String.data_append]
  have hlen : parseFuel ('.' :: '*' :: '(' :: (frag.data ++ [')', '.', '*'])) =
      (4 * frag.data.length + 18) + 10 := by
    simp only [parseFuel, List.length_cons, List.length_append, List.length_nil]
    omega
  have hmono := (parse_mono (parseFuel frag.data) ((4 * frag.data.length + 18) + 5)
    (by simp only [parseFuel]; omega)).1 _ _ hApp
  have htm := parseAlt_tmplAny (4 * frag.data.length + 18) frag.data fr hmono
  simp only [parseRegex, hdata, hlen, htm]

/-- In-range matches stay in range. -/
theorem RMatch.le_length {s : List Char} {r : Regex} {i j : Nat}
    (h : RMatch s r i j) (hi : i ≤ s.length) : j ≤ s.length := by
  induction h with
  | eps i => exact hi
  | cls c i h hs => omega
  | startAnchor => exact hi
  | endAnchor i h => exact hi
  | cat r1 r2 i k j h1 h2 ih1 ih2 => exact ih2 (ih1 hi)
  | altL r1 r2 i j h ih => exact ih hi
  | altR r1 r2 i j h ih => exact ih hi
  | starNil r i => exact hi
  | starCons r i k j h1 h2 ih1 ih2 => exact ih2 (ih1 hi)

theorem sepCC_sat_iff (c : Char) :
    ccSat sepCC c = true ↔ (c = '.' ∨ c = '_' ∨ c = '-') := by
  simp [ccSat, sepCC, itemSat]

/-- `search` of the `r1`/`r2` template: the subject contains a fragment
match immediately followed by a separator character. -/
theorem reSearch_tmplSep_iff (fr : Regex) (s : List Char) :
    reSearch (tmplSep fr) s = true ↔
      ∃ i j, RMatch s fr i j ∧ j < s.length ∧ ccSat sepCC (s.getD j ' ') = true := by
  rw [reSearch_iff]
  constructor
  · rintro ⟨i0, j0, hi0, hm⟩
    cases hm with
    | cat _ _ _ k1 _ hstar hrest =>
      cases hrest with
      | cat _ _ _ k2 _ hfr hrest2 =>
        cases hrest2 with
        | cat _ _ _ k3 _ hsep hrest3 =>
          cases hsep with
          | cat _ _ _ k4 _ hcls heps =>
            cases hcls with
            | cls _ _ hlt hsat => exact ⟨k1, k2, hfr, hlt, hsat⟩
  · rintro ⟨i, j, hfr, hj, hsat⟩
    have hij : i ≤ j := hfr.le
    have hi : i ≤ s.length := le_trans hij (le_of_lt hj)
    refine ⟨i, j + 1, hi, ?_⟩
    exact RMatch.cat _ _ i i (j + 1) (RMatch.starNil _ i)
      (RMatch.cat _ _ i j (j + 1) hfr
        (RMatch.cat _ _ j (j + 1) (j + 1)
          (RMatch.cat _ _ j (j + 1) (j + 1) (RMatch.cls sepCC j hj hsat)
            (RMatch.eps (j + 1)))
          (RMatch.cat _ _ (j + 1) (j + 1) (j + 1) (RMatch.starNil _ (j + 1))
            (RMatch.eps (j + 1)))))

/-- `search` of the `ignore` template: the subject contains a fragment
match anywhere. -/
theorem reSearch_tmplAny_iff (fr : Regex) (s : List Char) :
    reSearch (tmplAny fr) s = true ↔ ∃ i j, j ≤ s.length ∧ RMatch s fr i j := by
  rw [reSearch_iff]
  constructor
  · rintro ⟨i0, j0, hi0, hm⟩
    cases hm with
    | cat _ _ _ k1 _ hstar hrest =>
      cases hrest with
      | cat _ _ _ k2 _ hfr hrest2 =>
        have hk1 : k1 ≤ s.length := hstar.le_length hi0
        exact ⟨k1, k2, hfr.le_length hk1, hfr⟩
  · rintro ⟨i, j, hj, hfr⟩
    have hi : i ≤ s.length := le_trans hfr.le hj
    refine ⟨i, j, hi, ?_⟩
    exact RMatch.cat _ _ i i j (RMatch.starNil _ i)
      (RMatch.cat _ _ i j j hfr
        (RMatch.cat _ _ j j j (RMatch.starNil _ j) (RMatch.eps j)))

/-! ### The checker (`FastqFileNameChecker`)

Python exceptions are modelled as an error sum type and `raise` as
`Except.error`.  Two raise sites of the source reuse the Python class
`FilenameLengthMismatchError` but are semantically distinct error kinds
with distinct messages; they get separate constructors:

* `filenameLengthMismatch` — `_check_filename_lengths`, message
  "Filenames do not all have the same length...";
* `unbalancedCategories` — the post-categorization balance check,
  message "Unbalanced categories: R1={len_r1}, R2={len_r2}", carrying
  both counts.

`patternsNotLoaded` models `PatternsNotLoadedError`; `invalidPattern`
models the `re.error` escaping from `re.compile` on a bad pattern,
carrying the full compiled template text.
-/

inductive CheckerError where
  | patternsNotLoaded
  | filenameLengthMismatch
  | unbalancedCategories (r1Count r2Count : Nat)
  | invalidPattern (pattern : String)
deriving DecidableEq, Repr

/-- `self.patterns`: a Python dict with list values (`load_patterns`
returns `config["patterns"]`), as an association list with unique keys. -/
abbrev PatternsDict := List (String × List String)

/-- Python `patterns.get(k, [])`. -/
def dictGet (d : PatternsDict) (k : String) : List String :=
  match d.find? (fun kv => kv.1 == k) with
  | some kv => kv.2
  | none => []

/-- The compiled dict `{"R1": [...], "R2": [...], "ignore": [...]}`. -/
structure CompiledPatterns where
  R1 : List Regex
  R2 : List Regex
  ignore : List Regex
deriving DecidableEq, Repr

/-- One list comprehension of `compile_patterns`: compile each embedded
fragment, propagating the first `re.error`. -/
def compileList (embed : String → String) : List String → Except CheckerError (List Regex)
  | [] => .ok []
  | f :: rest =>
      match parseRegex (embed f) with
      | none => .error (.invalidPattern (embed f))
      | some r =>
          match compileList embed rest with
          | .error e => .error e
          | .ok rs => .ok (r :: rs)

/-- `FastqFileNameChecker.compile_patterns` (source lines 91-116): build
the three compiled groups, in the dict's construction order R1, R2,
ignore. -/
def compile_patterns (patterns : PatternsDict) : Except CheckerError CompiledPatterns :=
  match compileList embedSep (dictGet patterns "r1") with
  | .error e => .error e
  | .ok r1 =>
      match compileList embedSep (dictGet patterns "r2") with
      | .error e => .error e
      | .ok r2 =>
          match compileList embedAny (dictGet patterns "ignore") with
          | .error e => .error e
          | .ok ig => .ok ⟨r1, r2, ig⟩

/-- `os.path.basename`: the part after the last `/`. -/
def basename (s : String) : String :=
  String.mk ((s.data.reverse.takeWhile (fun c => !(c == '/'))).reverse)

/-- `any(pattern.search(filename) for pattern in group)`. -/
def matchesAny (group : List Regex) (filename : String) : Bool :=
  group.any (fun p => reSearch p filename.data)

inductive Category where
  | r1
  | r2
  | ignored
deriving DecidableEq, Repr

/-- The decision taken by the loop body of `categorize_fastq_files`
(source lines 151-166) for one full path: ignore patterns first, then
R1, then R2, else the fallback to `ignored`. -/
def classify (cp : CompiledPatterns) (full_path : String) : Category :=
  let filename := basename full_path
  if matchesAny cp.ignore filename then Category.ignored
  else if matchesAny cp.R1 filename then Category.r1
  else if matchesAny cp.R2 filename then Category.r2
  else Category.ignored

/-- The result dict `{"R1": [...], "R2": [...], "ignored": [...]}`. -/
structure CategorizedFiles where
  R1 : List String
  R2 : List String
  ignored : List String
deriving DecidableEq, Repr

/-- One iteration of the categorization loop: append the full path to
the bucket chosen by the if/elif chain. -/
def categorizeStep (cp : CompiledPatterns) (acc : CategorizedFiles) (full_path : String) :
    CategorizedFiles :=
  let filename := basename full_path
  if matchesAny cp.ignore filename then { acc with ignored := acc.ignored ++ [full_path] }
  else if matchesAny cp.R1 filename then { acc with R1 := acc.R1 ++ [full_path] }
  else if matchesAny cp.R2 filename then { acc with R2 := acc.R2 ++ [full_path] }
  else { acc with ignored := acc.ignored ++ [full_path] }

/-- Python `list.sort()` on strings: sort ascending by `≤`.  Any correct
sort of a linear order is extensionally unique, so insertion sort is
used as the executable model. -/
def sortStr (l : List String) : List String :=
  List.insertionSort (fun a b => a ≤ b) l

/-- `FastqFileNameChecker.categorize_fastq_files` (source lines 134-182):
guard on compiled patterns, single-pass bucketing, per-bucket sort, then
the R1/R2 balance check. -/
def categorize_fastq_files (compiled_patterns : Option CompiledPatterns)
    (filenames : List String) : Except CheckerError CategorizedFiles :=
  match compiled_patterns with
  | none => .error .patternsNotLoaded
  | some cp =>
      let categorized := filenames.foldl (categorizeStep cp) ⟨[], [], []⟩
      let sorted : CategorizedFiles :=
        ⟨sortStr categorized.R1, sortStr categorized.R2, sortStr categorized.ignored⟩
      let len_r1 := sorted.R1.length
      let len_r2 := sorted.R2.length
      if len_r1 ≠ len_r2 then .error (.unbalancedCategories len_r1 len_r2)
      else .ok sorted

/-- `FastqFileNameChecker._check_filename_lengths` (source lines
118-132): lengths of the original strings; more than one distinct
length is an error.  `len(set(lengths))` is the number of distinct
lengths. -/
def check_filename_lengths (filenames : List String) : Except CheckerError Unit :=
  let lengths := filenames.map String.length
  if 1 < lengths.dedup.length then .error .filenameLengthMismatch else .ok ()

/-- `FastqFileNameChecker.__init__` (source lines 52-63) after pattern
loading: `self.patterns` is `none` (None) or a dict; compilation runs
only when the dict is truthy (non-empty), and the optional length check
runs after compilation.  Returns the compiled state
(`compiled_patterns` set or not). -/
def compileStep (patterns : Option PatternsDict) :
    Except CheckerError (Option CompiledPatterns) :=
  match patterns with
  | none => .ok none
  | some d =>
      if d.isEmpty then .ok none
      else
        match compile_patterns d with
        | .error e => .error e
        | .ok cp => .ok (some cp)

def initChecker (patterns : Option PatternsDict) (length_check : Bool)
    (filenames : List String) : Except CheckerError (Option CompiledPatterns) :=
  match compileStep patterns with
  | .error e => .error e
  | .ok compiled =>
      if length_check then
        match check_filename_lengths filenames with
        | .error e => .error e
        | .ok _ => .ok compiled
      else .ok compiled

/-- A whole run: construct the checker, then call
`categorize_fastq_files`. -/
def runChecker (patterns : Option PatternsDict) (length_check : Bool)
    (filenames : List String) : Except CheckerError CategorizedFiles :=
  match initChecker patterns length_check filenames with
  | .error e => .error e
  | .ok compiled => categorize_fastq_files compiled filenames

/-- The bucket a category collects over a run, before sorting: the loop
appends in input order, so it is a filter. -/
def bucketOf (cp : CompiledPatterns) (filenames : List String) (c : Category) : List String :=
  filenames.filter (fun f => classify cp f == c)

/-! ### Characterisation of the categorizer -/

theorem sortStr_perm (l : List String) : (sortStr l).Perm l :=
  List.perm_insertionSort _ l

theorem sortStr_length (l : List String) : (sortStr l).length = l.length :=
  (sortStr_perm l).length_eq

theorem sortStr_sorted (l : List String) : List.Sorted (fun a b => a ≤ b) (sortStr l) :=
  List.sorted_insertionSort _ l

theorem mem_sortStr {x : String} {l : List String} : x ∈ sortStr l ↔ x ∈ l :=
  (sortStr_perm l).mem_iff

theorem sortStr_congr {l1 l2 : List String} (h : l1.Perm l2) : sortStr l1 = sortStr l2 :=
  List.eq_of_perm_of_sorted ((sortStr_perm l1).trans (h.trans (sortStr_perm l2).symm))
    (sortStr_sorted l1) (sortStr_sorted l2)

/-- The loop body appends to exactly the bucket `classify` chooses. -/
theorem categorizeStep_eq (cp : CompiledPatterns) (acc : CategorizedFiles) (f : String) :
    categorizeStep cp acc f =
      ⟨acc.R1 ++ if classify cp f == Category.r1 then [f] else [],
       acc.R2 ++ if classify cp f == Category.r2 then [f] else [],
       acc.ignored ++ if classify cp f == Category.ignored then [f] else []⟩ := by
  simp only [categorizeStep, classify]
  by_cases h1 : matchesAny cp.ignore (basename f) = true
  · simp [h1]
  · by_cases h2 : matchesAny cp.R1 (basename f) = true
    · simp [h1, h2]
    · by_cases h3 : matchesAny cp.R2 (basename f) = true
      · simp [h1, h2, h3]
      · simp [h1, h2, h3]

theorem bucketOf_cons (cp : CompiledPatterns) (f : String) (fns : List String) (c : Category) :
    bucketOf cp (f :: fns) c =
      (if classify cp f == c then [f] else []) ++ bucketOf cp fns c := by
  simp only [bucketOf, List.filter_cons]
  split
  · simp
  · simp

/-- The single pass of `categorize_fastq_files` builds, in input order,
exactly the three filters by classification. -/
theorem foldl_categorizeStep (cp : CompiledPatterns) :
    ∀ (fns : List String) (acc : CategorizedFiles),
      List.foldl (categorizeStep cp) acc fns =
        ⟨acc.R1 ++ bucketOf cp fns Category.r1, acc.R2 ++ bucketOf cp fns Category.r2,
         acc.ignored ++ bucketOf cp fns Category.ignored⟩ := by
  intro fns
  induction fns with
  | nil => intro acc; simp [bucketOf]
  | cons f fns ih =>
    intro acc
    simp only [List.foldl_cons, ih, categorizeStep_eq, bucketOf_cons, List.append_assoc]

/-- Closed form of `categorize_fastq_files` on a present compiled set. -/
theorem categorize_some_eq (cp : CompiledPatterns) (fns : List String) :
    categorize_fastq_files (some cp) fns =
      if (bucketOf cp fns Category.r1).length ≠ (bucketOf cp fns Category.r2).length then
        .error (.unbalancedCategories (bucketOf cp fns Category.r1).length
          (bucketOf cp fns Category.r2).length)
      else .ok ⟨sortStr (bucketOf cp fns Category.r1), sortStr (bucketOf cp fns Category.r2),
        sortStr (bucketOf cp fns Category.ignored)⟩ := by
  simp only [categorize_fastq_files, foldl_categorizeStep, List.nil_append, sortStr_length]

/-- The three buckets partition the input (as a multiset). -/
theorem bucket_partition (cp : CompiledPatterns) (fns : List String) :
    (bucketOf cp fns Category.r1 ++ bucketOf cp fns Category.r2 ++
      bucketOf cp fns Category.ignored).Perm fns := by
  induction fns with
  | nil => simp [bucketOf]
  | cons f fns ih =>
    rcases hc : classify cp f with _ | _ | _
    · simp only [bucketOf_cons, hc, beq_iff_eq, reduceCtorEq, beq_self_eq_true,
        if_false, if_true, List.nil_append, List.cons_append]
      exact List.Perm.cons f ih
    · simp only [bucketOf_cons, hc, beq_iff_eq, reduceCtorEq, beq_self_eq_true,
        if_false, if_true, List.nil_append, List.cons_append]
      have e : bucketOf cp fns Category.r1 ++ f :: bucketOf cp fns Category.r2 ++
            bucketOf cp fns Category.ignored =
          bucketOf cp fns Category.r1 ++ f :: (bucketOf cp fns Category.r2 ++
            bucketOf cp fns Category.ignored) := by
        simp [List.append_assoc]
      rw [e]
      exact List.perm_middle.trans
        (List.Perm.cons f (by simpa [List.append_assoc] using ih))
    · simp only [bucketOf_cons, hc, beq_iff_eq, reduceCtorEq, beq_self_eq_true,
        if_false, if_true, List.nil_append, List.cons_append]
      have e : bucketOf cp fns Category.r1 ++ bucketOf cp fns Category.r2 ++
            f :: bucketOf cp fns Category.ignored =
          (bucketOf cp fns Category.r1 ++ bucketOf cp fns Category.r2) ++
            f :: bucketOf cp fns Category.ignored := by
        simp
      rw [e]
      exact List.perm_middle.trans (List.Perm.cons f ih)

/-- Unfolding the if/elif chain: classified `r1` iff no ignore pattern
matches and an R1 pattern does. -/
theorem classify_eq_r1_iff (cp : CompiledPatterns) (f : String) :
    classify cp f = Category.r1 ↔
      matchesAny cp.ignore (basename f) = false ∧ matchesAny cp.R1 (basename f) = true := by
  simp only [classify]
  by_cases h1 : matchesAny cp.ignore (basename f) = true
  · simp [h1]
  · by_cases h2 : matchesAny cp.R1 (basename f) = true
    · simp [h1, h2]
    · by_cases h3 : matchesAny cp.R2 (basename f) = true
      · simp [h1, h2, h3]
      · simp [h1, h2, h3]

theorem classify_eq_r2_iff (cp : CompiledPatterns) (f : String) :
    classify cp f = Category.r2 ↔
      matchesAny cp.ignore (basename f) = false ∧ matchesAny cp.R1 (basename f) = false ∧
        matchesAny cp.R2 (basename f) = true := by
  simp only [classify]
  by_cases h1 : matchesAny cp.ignore (basename f) = true
  · simp [h1]
  · by_cases h2 : matchesAny cp.R1 (basename f) = true
    · simp [h1, h2]
    · by_cases h3 : matchesAny cp.R2 (basename f) = true
      · simp [h1, h2, h3]
      · simp [h1, h2, h3]

theorem classify_eq_ignored_iff (cp : CompiledPatterns) (f : String) :
    classify cp f = Category.ignored ↔
      matchesAny cp.ignore (basename f) = true ∨
        (matchesAny cp.ignore (basename f) = false ∧ matchesAny cp.R1 (basename f) = false ∧
          matchesAny cp.R2 (basename f) = false) := by
  simp only [classify]
  by_cases h1 : matchesAny cp.ignore (basename f) = true
  · simp [h1]
  · by_cases h2 : matchesAny cp.R1 (basename f) = true
    · simp [h1, h2]
    · by_cases h3 : matchesAny cp.R2 (basename f) = true
      · simp [h1, h2, h3]
      · simp [h1, h2, h3]

/-- Inversion of a successful categorization run. -/
theorem categorize_ok_inv {cp : CompiledPatterns} {fns : List String} {r : CategorizedFiles}
    (h : categorize_fastq_files (some cp) fns = .ok r) :
    (bucketOf cp fns Category.r1).length = (bucketOf cp fns Category.r2).length ∧
      r = ⟨sortStr (bucketOf cp fns Category.r1), sortStr (bucketOf cp fns Category.r2),
        sortStr (bucketOf cp fns Category.ignored)⟩ := by
  rw [categorize_some_eq] at h
  split at h
  · exact absurd h (by simp)
  · next hlen =>
    refine ⟨not_ne_iff.1 hlen, ?_⟩
    injection h with h
    exact h.symm

/-! ### Basename facts -/

theorem takeWhile_append_cons {p : Char → Bool} :
    ∀ (l1 : List Char) (x : Char) (l2 : List Char), (∀ a ∈ l1, p a = true) → p x = false →
      (l1 ++ x :: l2).takeWhile p = l1 := by
  intro l1
  induction l1 with
  | nil => intro x l2 _ hx; simp [List.takeWhile_cons, hx]
  | cons a t ih =>
    intro x l2 hall hx
    have ha : p a = true := hall a (List.mem_cons_self a t)
    simp only [List.cons_append, List.takeWhile_cons, ha, if_true]
    rw [ih x l2 (fun b hb => hall b (List.mem_cons_of_mem a hb)) hx]

theorem takeWhile_all {p : Char → Bool} :
    ∀ l : List Char, (∀ a ∈ l, p a = true) → l.takeWhile p = l := by
  intro l
  induction l with
  | nil => intro _; rfl
  | cons a t ih =>
    intro hall
    have ha : p a = true := hall a (List.mem_cons_self a t)
    simp only [List.takeWhile_cons, ha, if_true]
    rw [ih (fun b hb => hall b (List.mem_cons_of_mem a hb))]

/-- A slash-free name is its own basename. -/
theorem basename_no_slash (f : String) (h : ¬ '/' ∈ f.data) : basename f = f := by
  unfold basename
  rw [takeWhile_all]
  · rw [List.reverse_reverse]
  · intro a ha
    have : a ∈ f.data := List.mem_reverse.1 ha
    simp only [Bool.not_eq_eq_eq_not, Bool.not_true, beq_eq_false_iff_ne, ne_eq]
    intro hsl
    exact h (hsl ▸ this)

/-- `os.path.basename` strips any directory prefix. -/
theorem basename_append (pre f : String) (h : ¬ '/' ∈ f.data) :
    basename (pre ++ "/" ++ f) = f := by
  unfold basename
  have hd : (pre ++ "/" ++ f).data = pre.data ++ '/' :: f.data := by
    simp [String.data_append]
  rw [hd, List.reverse_append, List.reverse_cons, List.append_assoc, List.singleton_append,
    takeWhile_append_cons, List.reverse_reverse]
  · intro a ha
    have : a ∈ f.data := List.mem_reverse.1 ha
    simp only [Bool.not_eq_eq_eq_not, Bool.not_true, beq_eq_false_iff_ne, ne_eq]
    intro hsl
    exact h (hsl ▸ this)
  · simp

/-- `len(set(l)) > 1` means two elements differ. -/
theorem one_lt_dedup_length_iff {α : Type} [DecidableEq α] (l : List α) :
    1 < l.dedup.length ↔ ∃ a ∈ l, ∃ b ∈ l, a ≠ b := by
  constructor
  · intro h
    rcases hd : l.dedup with _ | ⟨x, _ | ⟨y, rest⟩⟩
    · rw [hd] at h; simp at h
    · rw [hd] at h; simp at h
    · have hx : x ∈ l := List.mem_dedup.1 (by rw [hd]; exact List.mem_cons_self x _)
      have hy : y ∈ l := List.mem_dedup.1
        (by rw [hd]; exact List.mem_cons_of_mem x (List.mem_cons_self y rest))
      have hnd := List.nodup_dedup l
      rw [hd] at hnd
      have hxy : x ≠ y := by
        intro e
        subst e
        exact (List.nodup_cons.1 hnd).1 (List.mem_cons_self x rest)
      exact ⟨x, hx, y, hy, hxy⟩
  · rintro ⟨a, ha, b, hb, hab⟩
    by_contra hle
    push_neg at hle
    have ha' : a ∈ l.dedup := List.mem_dedup.2 ha
    have hb' : b ∈ l.dedup := List.mem_dedup.2 hb
    rcases hd : l.dedup with _ | ⟨x, _ | ⟨y, rest⟩⟩
    · rw [hd] at ha'; exact absurd ha' (List.not_mem_nil a)
    · rw [hd] at ha' hb'
      simp only [List.mem_singleton] at ha' hb'
      exact hab (ha'.trans hb'.symm)
    · rw [hd] at hle; simp at hle

/-! ### Claims -/

/-- **C1.** For every input filename list and loaded pattern set,
`categorize_fastq_files` fails with the unbalanced-categories error
carrying both counts if and only if the final R1 and R2 bucket counts
differ; when the counts are equal — including both zero — it succeeds,
and on failure the error is the only output (`Except` carries no
partial result). -/
theorem c1_balance_invariant (cp : CompiledPatterns) (fns : List String) :
    (∀ e, categorize_fastq_files (some cp) fns = .error e ↔
        ((bucketOf cp fns Category.r1).length ≠ (bucketOf cp fns Category.r2).length ∧
          e = CheckerError.unbalancedCategories (bucketOf cp fns Category.r1).length
            (bucketOf cp fns Category.r2).length)) ∧
    ((bucketOf cp fns Category.r1).length = (bucketOf cp fns Category.r2).length →
      categorize_fastq_files (some cp) fns =
        .ok ⟨sortStr (bucketOf cp fns Category.r1), sortStr (bucketOf cp fns Category.r2),
          sortStr (bucketOf cp fns Category.ignored)⟩) ∧
    categorize_fastq_files (some cp) [] = .ok ⟨[], [], []⟩ := by
  refine ⟨?_, ?_, ?_⟩
  · intro e
    rw [categorize_some_eq]
    split
    · next hne =>
      constructor
      · intro h; injection h with h; exact ⟨hne, h.symm⟩
      · rintro ⟨_, rfl⟩; rfl
    · next heq =>
      constructor
      · intro h; exact absurd h (by simp)
      · rintro ⟨hne, _⟩; exact absurd (not_ne_iff.1 heq) hne
  · intro heq
    rw [categorize_some_eq, if_neg (not_ne_iff.2 heq)]
  · rfl

/-- **C2.** The three buckets returned by a successful run form a
partition of the input: their multiset union is the input list, and
every filename lands in exactly one bucket (counting multiplicity). -/
theorem c2_partition_multiset (cp : CompiledPatterns) (fns : List String)
    (r : CategorizedFiles) (h : categorize_fastq_files (some cp) fns = .ok r) :
    (r.R1 ++ r.R2 ++ r.ignored).Perm fns ∧
      ∀ x, r.R1.count x + r.R2.count x + r.ignored.count x = fns.count x := by
  obtain ⟨-, rfl⟩ := categorize_ok_inv h
  have hperm : (sortStr (bucketOf cp fns Category.r1) ++ sortStr (bucketOf cp fns Category.r2) ++
      sortStr (bucketOf cp fns Category.ignored)).Perm fns :=
    (List.Perm.append (List.Perm.append (sortStr_perm _) (sortStr_perm _))
      (sortStr_perm _)).trans (bucket_partition cp fns)
  refine ⟨hperm, fun x => ?_⟩
  have := hperm.count_eq x
  simpa [List.count_append, Nat.add_assoc] using this

theorem c2_partition_multiset_witness :
    (([] : List String) ++ [] ++ ["a"]).Perm ["a"] ∧
      ∀ x, ([] : List String).count x + ([] : List String).count x + ["a"].count x =
        ["a"].count x :=
  c2_partition_multiset ⟨[], [], []⟩ ["a"] ⟨[], [], ["a"]⟩ rfl

/-- **C3.** Bucket membership in a successful run is exactly the
ignore-then-R1-then-R2 first-match-wins discipline on the base name,
with unmatched filenames falling back to `ignored` (never rejected). -/
theorem c3_priority_order (cp : CompiledPatterns) (fns : List String)
    (r : CategorizedFiles) (h : categorize_fastq_files (some cp) fns = .ok r) :
    ∀ x,
      (x ∈ r.R1 ↔ x ∈ fns ∧ matchesAny cp.ignore (basename x) = false ∧
        matchesAny cp.R1 (basename x) = true) ∧
      (x ∈ r.R2 ↔ x ∈ fns ∧ matchesAny cp.ignore (basename x) = false ∧
        matchesAny cp.R1 (basename x) = false ∧ matchesAny cp.R2 (basename x) = true) ∧
      (x ∈ r.ignored ↔ x ∈ fns ∧ (matchesAny cp.ignore (basename x) = true ∨
        (matchesAny cp.ignore (basename x) = false ∧ matchesAny cp.R1 (basename x) = false ∧
          matchesAny cp.R2 (basename x) = false))) := by
  obtain ⟨-, rfl⟩ := categorize_ok_inv h
  intro x
  refine ⟨?_, ?_, ?_⟩
  · simp only [mem_sortStr, bucketOf, List.mem_filter, beq_iff_eq, classify_eq_r1_iff,
      and_assoc]
  · simp only [mem_sortStr, bucketOf, List.mem_filter, beq_iff_eq, classify_eq_r2_iff,
      and_assoc]
  · simp only [mem_sortStr, bucketOf, List.mem_filter, beq_iff_eq, classify_eq_ignored_iff]

theorem c3_priority_order_witness :
    ("a" ∈ ([] : List String) ↔ "a" ∈ (["a"] : List String) ∧
        matchesAny ([] : List Regex) (basename "a") = false ∧
        matchesAny ([] : List Regex) (basename "a") = true) ∧
      ("a" ∈ ([] : List String) ↔ "a" ∈ (["a"] : List String) ∧
        matchesAny ([] : List Regex) (basename "a") = false ∧
        matchesAny ([] : List Regex) (basename "a") = false ∧
        matchesAny ([] : List Regex) (basename "a") = true) ∧
      ("a" ∈ (["a"] : List String) ↔ "a" ∈ (["a"] : List String) ∧
        (matchesAny ([] : List Regex) (basename "a") = true ∨
          (matchesAny ([] : List Regex) (basename "a") = false ∧
            matchesAny ([] : List Regex) (basename "a") = false ∧
            matchesAny ([] : List Regex) (basename "a") = false))) :=
  c3_priority_order ⟨[], [], []⟩ ["a"] ⟨[], [], ["a"]⟩ rfl "a"

/-- **C5.** Only the base name (final path segment) is used for pattern
matching — prefixing a directory does not change the classification —
while the string placed into a result bucket is always one of the
original, unmodified input strings. -/
theorem c5_basename_matching (cp : CompiledPatterns) (pre f : String)
    (h : ¬ '/' ∈ f.data) :
    basename (pre ++ "/" ++ f) = f ∧
      classify cp (pre ++ "/" ++ f) = classify cp f ∧
      ∀ fns r x, categorize_fastq_files (some cp) fns = .ok r →
        x ∈ r.R1 ∨ x ∈ r.R2 ∨ x ∈ r.ignored → x ∈ fns := by
  refine ⟨basename_append pre f h, ?_, ?_⟩
  · simp only [classify, basename_append pre f h, basename_no_slash f h]
  · intro fns r x hok hx
    obtain ⟨-, rfl⟩ := categorize_ok_inv hok
    rcases hx with hx | hx | hx <;>
      exact (List.mem_filter.1 (mem_sortStr.1 hx)).1

theorem c5_basename_matching_witness :
    basename ("dir" ++ "/" ++ "a.txt") = "a.txt" ∧
      classify ⟨[], [], []⟩ ("dir" ++ "/" ++ "a.txt") = classify ⟨[], [], []⟩ "a.txt" ∧
      ∀ fns r x, categorize_fastq_files (some ⟨[], [], []⟩) fns = .ok r →
        x ∈ r.R1 ∨ x ∈ r.R2 ∨ x ∈ r.ignored → x ∈ fns :=
  c5_basename_matching ⟨[], [], []⟩ "dir" "a.txt" (by decide)

/-- **C6.** Each bucket of a successful run is sorted ascending by the
string order, and the whole result — success or failure — is invariant
under permuting the input list. -/
theorem c6_sorted_deterministic (cp : CompiledPatterns) (fns1 fns2 : List String)
    (h : fns1.Perm fns2) :
    categorize_fastq_files (some cp) fns1 = categorize_fastq_files (some cp) fns2 ∧
      ∀ r, categorize_fastq_files (some cp) fns1 = .ok r →
        List.Sorted (fun a b => a ≤ b) r.R1 ∧ List.Sorted (fun a b => a ≤ b) r.R2 ∧
          List.Sorted (fun a b => a ≤ b) r.ignored := by
  have hb : ∀ c, (bucketOf cp fns1 c).Perm (bucketOf cp fns2 c) := fun c =>
    List.Perm.filter _ h
  constructor
  · rw [categorize_some_eq, categorize_some_eq, (hb Category.r1).length_eq,
      (hb Category.r2).length_eq, sortStr_congr (hb Category.r1),
      sortStr_congr (hb Category.r2), sortStr_congr (hb Category.ignored)]
  · intro r hok
    obtain ⟨-, rfl⟩ := categorize_ok_inv hok
    exact ⟨sortStr_sorted _, sortStr_sorted _, sortStr_sorted _⟩

theorem c6_sorted_deterministic_witness :
    categorize_fastq_files (some ⟨[], [], []⟩) ["b", "a"] =
        categorize_fastq_files (some ⟨[], [], []⟩) ["a", "b"] ∧
      ∀ r, categorize_fastq_files (some ⟨[], [], []⟩) ["b", "a"] = .ok r →
        List.Sorted (fun a b => a ≤ b) r.R1 ∧ List.Sorted (fun a b => a ≤ b) r.R2 ∧
          List.Sorted (fun a b => a ≤ b) r.ignored :=
  c6_sorted_deterministic ⟨[], [], []⟩ ["b", "a"] ["a", "b"]
    (List.Perm.swap "a" "b" [])

/-- **C7.** Without a compiled pattern set (`compiled_patterns` attribute
absent — `self.patterns` was `None` or an empty, falsy dict), the run
fails with `PatternsNotLoadedError` and produces no bucket; with a
compiled set present this error is never raised. -/
theorem c7_patterns_not_loaded (fns : List String) :
    categorize_fastq_files none fns = .error .patternsNotLoaded ∧
      (∀ cp, categorize_fastq_files (some cp) fns ≠ .error .patternsNotLoaded) ∧
      runChecker none false fns = .error .patternsNotLoaded ∧
      runChecker (some []) false fns = .error .patternsNotLoaded := by
  refine ⟨rfl, ?_, rfl, rfl⟩
  intro cp
  rw [categorize_some_eq]
  split
  · intro h; injection h with h; cases h
  · intro h; cases h

/-- **C8.** The opt-in uniform-length pre-check looks at the lengths of
the full original strings; it fails iff two input filenames have
different lengths (so an empty or uniform list passes), runs during
construction — before any categorization — and never changes a
categorization result that is produced. -/
theorem c8_length_precheck (fns : List String) :
    (check_filename_lengths fns = .error .filenameLengthMismatch ↔
        ∃ a ∈ fns, ∃ b ∈ fns, a.length ≠ b.length) ∧
      (check_filename_lengths fns = .ok () ↔
        ∀ a ∈ fns, ∀ b ∈ fns, a.length = b.length) ∧
      (∀ p r, runChecker p true fns = .ok r → runChecker p false fns = .ok r) ∧
      (∀ p c, initChecker p false fns = .ok c →
        (∃ a ∈ fns, ∃ b ∈ fns, a.length ≠ b.length) →
          runChecker p true fns = .error .filenameLengthMismatch) ∧
      check_filename_lengths ["ab/c", "died"] = .ok () := by
  have hmap : (∃ a ∈ fns.map String.length, ∃ b ∈ fns.map String.length, a ≠ b) ↔
      ∃ a ∈ fns, ∃ b ∈ fns, a.length ≠ b.length := by
    constructor
    · rintro ⟨a, ha, b, hb, hab⟩
      rcases List.mem_map.1 ha with ⟨x, hx, rfl⟩
      rcases List.mem_map.1 hb with ⟨y, hy, rfl⟩
      exact ⟨x, hx, y, hy, hab⟩
    · rintro ⟨x, hx, y, hy, hxy⟩
      exact ⟨x.length, List.mem_map_of_mem _ hx, y.length, List.mem_map_of_mem _ hy, hxy⟩
  have herr : check_filename_lengths fns = .error .filenameLengthMismatch ↔
      ∃ a ∈ fns, ∃ b ∈ fns, a.length ≠ b.length := by
    rw [← hmap, ← one_lt_dedup_length_iff]
    simp only [check_filename_lengths]
    split
    · next h => simp [h]
    · next h => simp [h]
  have hok : check_filename_lengths fns = .ok () ↔
      ¬ ∃ a ∈ fns, ∃ b ∈ fns, a.length ≠ b.length := by
    rw [← hmap, ← one_lt_dedup_length_iff]
    simp only [check_filename_lengths]
    split
    · next h => simp [h]
    · next h => simp [h]
  refine ⟨herr, ?_, ?_, ?_, rfl⟩
  · rw [hok]
    push_neg
    rfl
  · intro p r h
    simp only [runChecker, initChecker] at h ⊢
    cases hcs : compileStep p with
    | error e => rw [hcs] at h; exact absurd h (by simp)
    | ok compiled =>
      rw [hcs] at h
      simp only [if_true] at h
      cases hchk : check_filename_lengths fns with
      | error e => rw [hchk] at h; exact absurd h (by simp)
      | ok u => rw [hchk] at h; simpa using h
  · intro p c h hex
    have hcs : compileStep p = .ok c := by
      simp only [initChecker] at h
      cases hcs : compileStep p with
      | error e => rw [hcs] at h; exact absurd h (by simp)
      | ok compiled => rw [hcs] at h; simpa using h
    have hchk : check_filename_lengths fns = .error .filenameLengthMismatch := herr.2 hex
    simp only [runChecker, initChecker, hcs, if_true, hchk]

/-- **C10.** A present compiled set whose three groups are all empty is
not "patterns not loaded": categorization succeeds for every input,
every filename reaches `ignored` through the fallback rule, and R1 and
R2 come back empty.  A non-empty patterns dict with empty lists is
truthy, so `__init__` does compile it. -/
theorem c10_empty_groups (fns : List String) :
    (∃ r, categorize_fastq_files (some ⟨[], [], []⟩) fns = .ok r ∧
      r.R1 = [] ∧ r.R2 = [] ∧ r.ignored.Perm fns) ∧
    categorize_fastq_files (some ⟨[], [], []⟩) fns ≠ .error .patternsNotLoaded ∧
    compile_patterns [("r1", []), ("r2", []), ("ignore", [])] = .ok ⟨[], [], []⟩ ∧
    runChecker (some [("r1", []), ("r2", []), ("ignore", [])]) false fns =
      categorize_fastq_files (some ⟨[], [], []⟩) fns := by
  have hb1 : bucketOf ⟨[], [], []⟩ fns Category.r1 = [] := by
    simp [bucketOf, classify, matchesAny]
  have hb2 : bucketOf ⟨[], [], []⟩ fns Category.r2 = [] := by
    simp [bucketOf, classify, matchesAny]
  have hbi : bucketOf ⟨[], [], []⟩ fns Category.ignored = fns := by
    simp [bucketOf, classify, matchesAny]
  have hcat : categorize_fastq_files (some ⟨[], [], []⟩) fns =
      .ok ⟨[], [], sortStr fns⟩ := by
    rw [categorize_some_eq, hb1, hb2, hbi]
    simp [sortStr]
  refine ⟨⟨⟨[], [], sortStr fns⟩, hcat, rfl, rfl, sortStr_perm fns⟩, ?_, rfl, rfl⟩
  rw [hcat]
  intro h
  cases h

/-! ### Compilation facts (claim C9) -/

theorem compileList_ok {embed : String → String} :
    ∀ {frags : List String} {rs : List Regex}, compileList embed frags = .ok rs →
      frags.map (fun f => parseRegex (embed f)) = rs.map some := by
  intro frags
  induction frags with
  | nil =>
    intro rs h
    simp only [compileList] at h
    injection h with h
    rw [← h]
    rfl
  | cons f rest ih =>
    intro rs h
    simp only [compileList] at h
    cases hp : parseRegex (embed f) with
    | none => rw [hp] at h; cases h
    | some r =>
      rw [hp] at h
      cases hc : compileList embed rest with
      | error e => rw [hc] at h; cases h
      | ok rs' =>
        rw [hc] at h
        injection h with h
        rw [← h]
        simp only [List.map_cons, hp, ih hc]

theorem compileList_ok_forall {embed : String → String} :
    ∀ {frags : List String} {rs : List Regex}, compileList embed frags = .ok rs →
      ∀ f ∈ frags, (parseRegex (embed f)).isSome = true := by
  intro frags
  induction frags with
  | nil => intro rs _ f hf; exact absurd hf (List.not_mem_nil f)
  | cons g rest ih =>
    intro rs h f hf
    simp only [compileList] at h
    cases hp : parseRegex (embed g) with
    | none => rw [hp] at h; cases h
    | some r =>
      rw [hp] at h
      cases hc : compileList embed rest with
      | error e => rw [hc] at h; cases h
      | ok rs' =>
        rcases List.mem_cons.1 hf with rfl | hf'
        · simp [hp]
        · exact ih hc f hf'

theorem compileList_error {embed : String → String} :
    ∀ {frags : List String} {e : CheckerError}, compileList embed frags = .error e →
      ∃ f ∈ frags, parseRegex (embed f) = none ∧ e = .invalidPattern (embed f) := by
  intro frags
  induction frags with
  | nil => intro e h; simp only [compileList] at h; cases h
  | cons g rest ih =>
    intro e h
    simp only [compileList] at h
    cases hp : parseRegex (embed g) with
    | none =>
      rw [hp] at h
      injection h with h
      exact ⟨g, List.mem_cons_self g rest, hp, h.symm⟩
    | some r =>
      rw [hp] at h
      cases hc : compileList embed rest with
      | error e' =>
        rw [hc] at h
        injection h with h
        rcases ih hc with ⟨f, hf, hpf, he⟩
        exact ⟨f, List.mem_cons_of_mem g hf, hpf, h ▸ he⟩
      | ok rs' => rw [hc] at h; cases h

theorem compileList_total_ok {embed : String → String} :
    ∀ {frags : List String}, (∀ f ∈ frags, (parseRegex (embed f)).isSome = true) →
      ∃ rs, compileList embed frags = .ok rs := by
  intro frags
  induction frags with
  | nil => intro _; exact ⟨[], rfl⟩
  | cons g rest ih =>
    intro hall
    have hg := hall g (List.mem_cons_self g rest)
    rcases Option.isSome_iff_exists.1 hg with ⟨r, hr⟩
    rcases ih (fun f hf => hall f (List.mem_cons_of_mem g hf)) with ⟨rs, hrs⟩
    refine ⟨r :: rs, ?_⟩
    simp only [compileList, hr, hrs]

/-- **C9.** Pattern compilation fails — with the invalid-pattern error
(`re.error`) naming the embedded template — precisely when some
fragment's embedded match template does not parse as a regex; when every
embedded template is valid, compilation succeeds, and the compiled set
then holds the full parse of every fragment of every group (no partial
compilation). -/
theorem c9_compile_validity (d : PatternsDict) :
    (∀ c, compile_patterns d = .ok c →
      (dictGet d "r1").map (fun f => parseRegex (embedSep f)) = c.R1.map some ∧
      (dictGet d "r2").map (fun f => parseRegex (embedSep f)) = c.R2.map some ∧
      (dictGet d "ignore").map (fun f => parseRegex (embedAny f)) = c.ignore.map some) ∧
    (∀ e, compile_patterns d = .error e →
      ∃ t, e = .invalidPattern t ∧ parseRegex t = none ∧
        ((∃ f ∈ dictGet d "r1", t = embedSep f) ∨ (∃ f ∈ dictGet d "r2", t = embedSep f) ∨
          (∃ f ∈ dictGet d "ignore", t = embedAny f))) ∧
    (((∀ f ∈ dictGet d "r1", (parseRegex (embedSep f)).isSome = true) ∧
      (∀ f ∈ dictGet d "r2", (parseRegex (embedSep f)).isSome = true) ∧
      (∀ f ∈ dictGet d "ignore", (parseRegex (embedAny f)).isSome = true)) ↔
      ∃ c, compile_patterns d = .ok c) := by
  refine ⟨?_, ?_, ?_, ?_⟩
  · intro c hc
    simp only [compile_patterns] at hc
    cases h1 : compileList embedSep (dictGet d "r1") with
    | error e => rw [h1] at hc; cases hc
    | ok rs1 =>
      rw [h1] at hc
      cases h2 : compileList embedSep (dictGet d "r2") with
      | error e => rw [h2] at hc; cases hc
      | ok rs2 =>
        rw [h2] at hc
        cases h3 : compileList embedAny (dictGet d "ignore") with
        | error e => rw [h3] at hc; cases hc
        | ok rs3 =>
          rw [h3] at hc
          injection hc with hc
          rw [← hc]
          exact ⟨compileList_ok h1, compileList_ok h2, compileList_ok h3⟩
  · intro e he
    simp only [compile_patterns] at he
    cases h1 : compileList embedSep (dictGet d "r1") with
    | error e1 =>
      rw [h1] at he
      injection he with he
      rcases compileList_error h1 with ⟨f, hf, hp, hinv⟩
      exact ⟨embedSep f, he ▸ hinv, hp, Or.inl ⟨f, hf, rfl⟩⟩
    | ok rs1 =>
      rw [h1] at he
      cases h2 : compileList embedSep (dictGet d "r2") with
      | error e2 =>
        rw [h2] at he
        injection he with he
        rcases compileList_error h2 with ⟨f, hf, hp, hinv⟩
        exact ⟨embedSep f, he ▸ hinv, hp, Or.inr (Or.inl ⟨f, hf, rfl⟩)⟩
      | ok rs2 =>
        rw [h2] at he
        cases h3 : compileList embedAny (dictGet d "ignore") with
        | error e3 =>
          rw [h3] at he
          injection he with he
          rcases compileList_error h3 with ⟨f, hf, hp, hinv⟩
          exact ⟨embedAny f, he ▸ hinv, hp, Or.inr (Or.inr ⟨f, hf, rfl⟩)⟩
        | ok rs3 => rw [h3] at he; cases he
  · rintro ⟨hv1, hv2, hv3⟩
    rcases compileList_total_ok hv1 with ⟨rs1, h1⟩
    rcases compileList_total_ok hv2 with ⟨rs2, h2⟩
    rcases compileList_total_ok hv3 with ⟨rs3, h3⟩
    exact ⟨⟨rs1, rs2, rs3⟩, by simp only [compile_patterns, h1, h2, h3]⟩
  · rintro ⟨c, hc⟩
    simp only [compile_patterns] at hc
    cases h1 : compileList embedSep (dictGet d "r1") with
    | error e => rw [h1] at hc; cases hc
    | ok rs1 =>
      rw [h1] at hc
      cases h2 : compileList embedSep (dictGet d "r2") with
      | error e => rw [h2] at hc; cases hc
      | ok rs2 =>
        rw [h2] at hc
        cases h3 : compileList embedAny (dictGet d "ignore") with
        | error e => rw [h3] at hc; cases hc
        | ok rs3 =>
          exact ⟨compileList_ok_forall h1, compileList_ok_forall h2,
            compileList_ok_forall h3⟩

/-- **C4.** A compiled `r1`/`r2` predicate is the parse of the template
`.*({frag})([._-]).*` and its `search` succeeds on a filename iff the
filename contains a fragment match immediately followed by one of `.`,
`_`, `-` (anywhere, not anchored); a compiled `ignore` predicate is the
parse of `.*({frag}).*` and matches iff the filename contains a fragment
match anywhere, with no separator requirement.  In particular a filename
whose only fragment matches end at the very end of the string (no
trailing separator) is not matched by the `r1`/`r2` predicate. -/
theorem c4_separator_requirement (frag : String) (fr : Regex)
    (h : parseRegex frag = some fr) :
    parseRegex (embedSep frag) = some (tmplSep fr) ∧
    parseRegex (embedAny frag) = some (tmplAny fr) ∧
    (∀ s : List Char, reSearch (tmplSep fr) s = true ↔
      ∃ i j, RMatch s fr i j ∧ j < s.length ∧
        (s.getD j ' ' = '.' ∨ s.getD j ' ' = '_' ∨ s.getD j ' ' = '-')) ∧
    (∀ s : List Char, reSearch (tmplAny fr) s = true ↔
      ∃ i j, j ≤ s.length ∧ RMatch s fr i j) ∧
    (∀ s : List Char, (∀ i j, RMatch s fr i j → j = s.length) →
      reSearch (tmplSep fr) s = false) := by
  refine ⟨parseRegex_embedSep frag fr h, parseRegex_embedAny frag fr h, ?_, ?_, ?_⟩
  · intro s
    rw [reSearch_tmplSep_iff]
    constructor
    · rintro ⟨i, j, hfr, hj, hsat⟩
      exact ⟨i, j, hfr, hj, (sepCC_sat_iff _).1 hsat⟩
    · rintro ⟨i, j, hfr, hj, hsat⟩
      exact ⟨i, j, hfr, hj, (sepCC_sat_iff _).2 hsat⟩
  · intro s
    exact reSearch_tmplAny_iff fr s
  · intro s hend
    cases hr : reSearch (tmplSep fr) s with
    | false => rfl
    | true =>
      exfalso
      rcases (reSearch_tmplSep_iff fr s).1 hr with ⟨i, j, hfr, hj, -⟩
      rw [hend i j hfr] at hj
      exact lt_irrefl _ hj

theorem c4_separator_requirement_witness :
    parseRegex (embedSep "_R1") = some (tmplSep (Regex.cat (.cls (.lit '_'))
      (.cat (.cls (.lit 'R')) (.cat (.cls (.lit '1')) .eps)))) ∧
    parseRegex (embedAny "_R1") = some (tmplAny (Regex.cat (.cls (.lit '_'))
      (.cat (.cls (.lit 'R')) (.cat (.cls (.lit '1')) .eps)))) ∧
    (∀ s : List Char, reSearch (tmplSep (Regex.cat (.cls (.lit '_'))
        (.cat (.cls (.lit 'R')) (.cat (.cls (.lit '1')) .eps)))) s = true ↔
      ∃ i j, RMatch s (Regex.cat (.cls (.lit '_'))
          (.cat (.cls (.lit 'R')) (.cat (.cls (.lit '1')) .eps))) i j ∧ j < s.length ∧
        (s.getD j ' ' = '.' ∨ s.getD j ' ' = '_' ∨ s.getD j ' ' = '-')) ∧
    (∀ s : List Char, reSearch (tmplAny (Regex.cat (.cls (.lit '_'))
        (.cat (.cls (.lit 'R')) (.cat (.cls (.lit '1')) .eps)))) s = true ↔
      ∃ i j, j ≤ s.length ∧ RMatch s (Regex.cat (.cls (.lit '_'))
        (.cat (.cls (.lit 'R')) (.cat (.cls (.lit '1')) .eps))) i j) ∧
    (∀ s : List Char, (∀ i j, RMatch s (Regex.cat (.cls (.lit '_'))
        (.cat (.cls (.lit 'R')) (.cat (.cls (.lit '1')) .eps))) i j → j = s.length) →
      reSearch (tmplSep (Regex.cat (.cls (.lit '_'))
        (.cat (.cls (.lit 'R')) (.cat (.cls (.lit '1')) .eps)))) s = false) :=
  c4_separator_requirement "_R1"
    (Regex.cat (.cls (.lit '_')) (.cat (.cls (.lit 'R')) (.cat (.cls (.lit '1')) .eps)))
    rfl

end Frmatcher
